import Mathlib

/-!
# Verification of the hidden-API signature trie subsystem

This file is a shallow embedding, in Lean 4, of the core of the
`scripts/hiddenapi` tools of the repository:

* `signature_trie.py` — signature grammar (`signature_to_elements`,
  `elements_to_selector`), the signature trie (`InteriorNode.add`,
  `InteriorNode.get_matching_rows`, `append_values`/`values`, `Leaf`);
* `signature_patterns.py` — pattern generation and validation
  (`produce_patterns_from_stream`, `validate_package_prefixes`,
  `validate_split_packages`, `validate_single_packages`,
  `matched_by_package_prefix_pattern`, `is_split_package`);
* `verify_overlaps.py` — flag comparison (`compare_signature_flags`);
* `analyze_bcpf.py` — package classification
  (`recurse_hiddenapi_packages_trie`, `compute_hiddenapi_package_properties`).

Python strings are modelled as `List Char` (`PyStr`), and the Python string
methods used by the source (`split`, `rsplit(maxsplit=1)`, `split(maxsplit=1)`,
`removeprefix`, `removesuffix`, `islower`, `startswith`, `replace`, `in`) are
given faithful definitions below; `islower` is modelled for the ASCII range
(all inputs that occur in these tools are ASCII).  Python exceptions raised by
the source are modelled with the `TrieErr` inductive, each constructor
standing for one distinct `raise` site, together with `TrieErr.message`
reproducing the exception text.  Mutation of the trie is modelled by returning
the post-call state: `InteriorNode.add` returns the updated trie *and* the
optionally raised exception, exactly reflecting which mutations have happened
by the time Python raises.
-/

set_option autoImplicit false

namespace HiddenApi

/-- Python strings, modelled as lists of characters. -/
abbrev PyStr := List Char

/-- Conversion from a Lean string literal to a `PyStr`. -/
def pystr (s : String) : PyStr := s.data

/-- Python `sep in s` for a single-character `sep` / `str.__contains__`. -/
def pyContainsChar (s : PyStr) (c : Char) : Bool := s.contains c

/-- Python `s.startswith(p)`. -/
def pyStartsWith (s p : PyStr) : Bool := p.isPrefixOf s

/-- Python `s.removeprefix(p)`: drop `p` if `s` starts with it, else `s`. -/
def pyRemovePrefix (s p : PyStr) : PyStr :=
  if p.isPrefixOf s then s.drop p.length else s

/-- Python `s.removesuffix(p)`: drop `p` if `s` ends with it, else `s`.
Python's `removesuffix` does not strip an empty suffix differently, and for
nonempty `p` it removes exactly one copy. -/
def pyRemoveSuffix (s p : PyStr) : PyStr :=
  if p ≠ [] ∧ p.isSuffixOf s then s.take (s.length - p.length) else s

/-- Python `s.split(sep)` for a nonempty separator `sep`: split at each
leftmost non-overlapping occurrence of `sep`.  (`pySplit sep s` with
`sep = []` is mapped to `[s]`; the source never splits on an empty
separator, which raises in Python.) -/
def pySplitGo (sep : PyStr) : Nat → PyStr → List PyStr
  | _, [] => [[]]
  | 0, s => [s]
  | fuel + 1, c :: rest =>
    if sep.isPrefixOf (c :: rest) then
      [] :: pySplitGo sep fuel (rest.drop (sep.length - 1))
    else
      match pySplitGo sep fuel rest with
      | [] => [[c]]
      | p :: ps => (c :: p) :: ps

/-- Python `s.split(sep)` for a nonempty separator `sep`: split at each
leftmost non-overlapping occurrence of `sep`.  (The scan is implemented with
a character budget so that it is structurally recursive; `pySplit_cons`
recovers the natural recursion equation.  `pySplit sep s` with `sep = []` is
mapped to `[s]`; the source never splits on an empty separator, which raises
in Python.) -/
def pySplit (sep : PyStr) (s : PyStr) : List PyStr :=
  match sep with
  | [] => [s]
  | _ :: _ => pySplitGo sep s.length s

/-- Python `s.rsplit(sep, maxsplit=1)` for a single-character separator:
split at the last occurrence only. -/
def pyRSplit1 (sep : Char) (s : PyStr) : List PyStr :=
  match pySplit [sep] s with
  | [] => [s]
  | [_] => [s]
  | pieces => [List.intercalate [sep] pieces.dropLast, pieces.getLastD []]

/-- Python `s.split(sep, maxsplit=1)` for a nonempty separator: split at the
first occurrence only. -/
def pySplit1 (sep : PyStr) (s : PyStr) : List PyStr :=
  match pySplit sep s with
  | [] => [s]
  | [_] => [s]
  | p :: _ => [p, s.drop (p.length + sep.length)]

/-- Python `s.replace(old, new)` for single characters (only
`replace("/", ".")` and `replace(".", "/")` occur in the source). -/
def pyReplaceChar (s : PyStr) (old new : Char) : PyStr :=
  s.map (fun c => if c = old then new else c)

/-- Python `str.islower()` restricted to ASCII: true iff the string has at
least one cased character and no cased character is upper case.  (For the
ASCII inputs of these tools the cased characters are exactly the letters.) -/
def pyIsLower (s : PyStr) : Bool :=
  s.any (fun c => c.isAlpha) && s.all (fun c => !c.isAlpha || c.isLower)

/-- Lexicographic comparison of Python strings by character code
(`s <= t` of Python, used by `sorted`/`list.sort`). -/
def pyLE : PyStr → PyStr → Bool
  | [], _ => true
  | _ :: _, [] => false
  | a :: s, b :: t =>
    if a.val < b.val then true
    else if b.val < a.val then false
    else pyLE s t

/-- Python `sorted(xs)` (stable insertion sort by `pyLE`). -/
def pySorted (l : List PyStr) : List PyStr := l.insertionSort (fun a b => pyLE a b)

end HiddenApi

namespace HiddenApi

/-! ## The signature grammar (`signature_trie.py`) -/

/-- An element of a decomposed signature: the Python pair
`(element_type, element_value)`, e.g. `("package", "java")`.  The type tag is
always one of the literals `"package"`, `"class"`, `"member"`, `"wildcard"`,
so it is modelled as a Lean `String`; the value is input text, a `PyStr`. -/
abbrev Element := String × PyStr

/-- `InteriorNode.split_element` / `element_type` of the source. -/
def elementType (e : Element) : String := e.1

/-- The exceptions raised by the source.  Each constructor corresponds to one
distinct `raise Exception(f"...")` site; the carried fields are the values
interpolated into the f-string (see `TrieErr.message`).
`attributeError` models the `AttributeError` Python raises when the code
accesses `.nodes` on a `Leaf` (which has no such attribute). -/
inductive TrieErr where
  /-- `f"Invalid signature '{signature}': invalid wildcard '{last_element}'"` -/
  | invalidWildcard (signature lastElement : PyStr)
  /-- `f"Invalid signature '{signature}': contains wildcard '{last_element}'
      and member signature '{member[0]}'"` -/
  | wildcardMember (signature lastElement member0 : PyStr)
  /-- `"Invalid signature %s: contains wildcard %s and member signature %s"`
      (`verify_overlaps.py`'s variant of the wildcard/member clash; the text
      differs from the `signature_trie.py` message). -/
  | wildcardMemberOverlap (signature lastElement member0 : PyStr)
  /-- `f"Invalid signature '{signature}': last element '{last_element}' is
      lower case but should be an upper case class name or wildcard"` -/
  | lowerCaseLast (signature lastElement : PyStr)
  /-- `f"Invalid signature: {signature}, does not identify a specific member"` -/
  | notAMember (signature : PyStr)
  /-- `f"Duplicate signature: {signature}"` -/
  | duplicateSignature (signature : PyStr)
  /-- Python `AttributeError`: `'Leaf' object has no attribute 'nodes'`. -/
  | attributeError
  deriving DecidableEq, Repr

/-- The exception text of each `raise` site, as in the source f-strings. -/
def TrieErr.message : TrieErr → PyStr
  | .invalidWildcard s l =>
      pystr "Invalid signature '" ++ s ++ pystr "': invalid wildcard '" ++ l ++ pystr "'"
  | .wildcardMember s l m =>
      pystr "Invalid signature '" ++ s ++ pystr "': contains wildcard '" ++ l
        ++ pystr "' and member signature '" ++ m ++ pystr "'"
  | .wildcardMemberOverlap s l m =>
      pystr "Invalid signature " ++ s ++ pystr ": contains wildcard " ++ l
        ++ pystr " and member signature " ++ m
  | .lowerCaseLast s l =>
      pystr "Invalid signature '" ++ s ++ pystr "': last element '" ++ l
        ++ pystr "' is lower case but should be an upper case class name or wildcard"
  | .notAMember s =>
      pystr "Invalid signature: " ++ s ++ pystr ", does not identify a specific member"
  | .duplicateSignature s => pystr "Duplicate signature: " ++ s
  | .attributeError => pystr "'Leaf' object has no attribute 'nodes'"

/-- The qualified-class-name part of a signature: `parts[0]` where
`parts = signature.removeprefix("L").split(";->")`. -/
def qualifiedPart (signature : PyStr) : PyStr :=
  (pySplit (pystr ";->") (pyRemovePrefix signature (pystr "L"))).headD []

/-- The member suffix list of a signature: `parts[1:]`. -/
def memberParts (signature : PyStr) : List PyStr :=
  (pySplit (pystr ";->") (pyRemovePrefix signature (pystr "L"))).tail

/-- The path segments of a signature: `parts[0].split("/")`. -/
def pathSegments (signature : PyStr) : List PyStr :=
  pySplit (pystr "/") (qualifiedPart signature)

/-- The final path segment `elements[-1]` of a signature. -/
def lastSegment (signature : PyStr) : PyStr := (pathSegments signature).getLastD []

/-- `InteriorNode.signature_to_elements` of `signature_trie.py`: split a
signature or pattern into typed elements, raising the three grammar errors of
the source. -/
def signature_to_elements (signature : PyStr) : Except TrieErr (List Element) :=
  if pyContainsChar (lastSegment signature) '*' then
    if lastSegment signature ≠ pystr "*" ∧ lastSegment signature ≠ pystr "**" then
      .error (.invalidWildcard signature (lastSegment signature))
    else if memberParts signature ≠ [] then
      .error (.wildcardMember signature (lastSegment signature)
        ((memberParts signature).headD []))
    else
      .ok (((pathSegments signature).dropLast).map (fun x => ("package", x))
        ++ [("wildcard", lastSegment signature)])
  else if pyIsLower (lastSegment signature) then
    .error (.lowerCaseLast signature (lastSegment signature))
  else
    .ok (((pathSegments signature).dropLast).map (fun x => ("package", x))
      ++ (pySplit (pystr "$") (pyRemoveSuffix (lastSegment signature) (pystr ";"))).map
          (fun x => ("class", x))
      ++ (memberParts signature).map (fun x => ("member", x)))

/-- One step of the separator computation in `elements_to_selector`. -/
def selectorSeparator (precedingType : String) (elementType : String) : PyStr :=
  if elementType = "package" then pystr "/"
  else if elementType = "class" then
    if precedingType = "class" then pystr "$" else pystr "/"
  else if elementType = "wildcard" then pystr "/"
  else if elementType = "member" then pystr ";->"
  else []

/-- The loop of `InteriorNode.elements_to_selector`, carrying the signature
accumulated so far and the preceding element type. -/
def elementsToSelectorLoop (signature : PyStr) (precedingType : String) :
    List Element → PyStr
  | [] => signature
  | (ty, v) :: rest =>
    let sep := selectorSeparator precedingType ty
    let signature' := if signature ≠ [] then signature ++ sep ++ v else signature ++ v
    elementsToSelectorLoop signature' ty rest

/-- `InteriorNode.elements_to_selector` of `signature_trie.py`. -/
def elements_to_selector (elements : List Element) : PyStr :=
  elementsToSelectorLoop [] "" elements

end HiddenApi

namespace HiddenApi

/-! ## The signature trie (`signature_trie.py`) -/

/-- A node of the signature trie (`Node`/`InteriorNode`/`Leaf` of the
source).  `interior ty sel ns` models an `InteriorNode` with `type=ty`,
`selector=sel` and child dict `ns` (an insertion-ordered association list,
exactly like a Python dict); `leaf ty sel v` models a `Leaf` carrying the
associated value `v`. -/
inductive Node (α : Type) where
  | interior (ty : String) (selector : PyStr) (nodes : List (Element × Node α))
  | leaf (ty : String) (selector : PyStr) (value : α)
  deriving Repr

mutual

/-- Decidable equality of nodes. -/
def Node.decEq {α : Type} [DecidableEq α] : (a b : Node α) → Decidable (a = b)
  | .interior ta sa na, .interior tb sb nb =>
    if h1 : ta = tb then
      if h2 : sa = sb then
        match Node.decEqChildren na nb with
        | .isTrue h3 => .isTrue (by rw [h1, h2, h3])
        | .isFalse h => .isFalse (by intro h'; cases h'; exact h rfl)
      else .isFalse (by intro h'; cases h'; exact h2 rfl)
    else .isFalse (by intro h'; cases h'; exact h1 rfl)
  | .leaf ta sa va, .leaf tb sb vb =>
    if h1 : ta = tb then
      if h2 : sa = sb then
        if h3 : va = vb then .isTrue (by rw [h1, h2, h3])
        else .isFalse (by intro h'; cases h'; exact h3 rfl)
      else .isFalse (by intro h'; cases h'; exact h2 rfl)
    else .isFalse (by intro h'; cases h'; exact h1 rfl)
  | .interior _ _ _, .leaf _ _ _ => .isFalse (by intro h; cases h)
  | .leaf _ _ _, .interior _ _ _ => .isFalse (by intro h; cases h)

/-- Decidable equality of child dicts. -/
def Node.decEqChildren {α : Type} [DecidableEq α] :
    (a b : List (Element × Node α)) → Decidable (a = b)
  | [], [] => .isTrue rfl
  | [], _ :: _ => .isFalse (by simp)
  | _ :: _, [] => .isFalse (by simp)
  | (ka, na) :: ra, (kb, nb) :: rb =>
    if h1 : ka = kb then
      match Node.decEq na nb, Node.decEqChildren ra rb with
      | .isTrue h2, .isTrue h3 => .isTrue (by rw [h1, h2, h3])
      | .isFalse h, _ => .isFalse (by intro h'; cases h'; exact h rfl)
      | _, .isFalse h => .isFalse (by intro h'; cases h'; exact h rfl)
    else .isFalse (by intro h'; cases h'; exact h1 rfl)

end

instance {α : Type} [DecidableEq α] : DecidableEq (Node α) := Node.decEq

/-- `signature_trie()` of the source: the empty root node. -/
def signature_trie {α : Type} : Node α := .interior "root" [] []

/-- `element in node.nodes` for a child dict. -/
def hasChildKey {α : Type} (ns : List (Element × Node α)) (e : Element) : Bool :=
  ns.any (fun p => p.1 = e)

/-- `node.nodes[element]` (first binding; keys are unique in any dict). -/
def findChild {α : Type} (ns : List (Element × Node α)) (e : Element) :
    Option (Node α) :=
  match ns with
  | [] => none
  | (k, n) :: rest => if k = e then some n else findChild rest e

/-- `node.nodes[element] = n`: overwrite an existing binding in place (dict
update preserves key order). -/
def setChild {α : Type} (ns : List (Element × Node α)) (e : Element) (n : Node α) :
    List (Element × Node α) :=
  match ns with
  | [] => []
  | (k, m) :: rest => if k = e then (k, n) :: rest else (k, m) :: setChild rest e n

mutual

/-- `Node.append_values`/`Node.values` with the always-true selector: all the
values of every descendant `Leaf`, in child-dict order. -/
def allValues {α : Type} : Node α → List α
  | .leaf _ _ v => [v]
  | .interior _ _ ns => allValuesL ns

/-- `allValues` over a child dict. -/
def allValuesL {α : Type} : List (Element × Node α) → List α
  | [] => []
  | (_, c) :: rest => allValues c ++ allValuesL rest

end

/-- The loop of `InteriorNode.append_values`: each child whose key satisfies
`sel` contributes all its descendant values (the selector applies to the top
level only). -/
def selValues {α : Type} (sel : Element → Bool) : List (Element × Node α) → List α
  | [] => []
  | (k, c) :: rest => (if sel k then allValues c else []) ++ selValues sel rest

/-- `Node.values` of the source: `InteriorNode.append_values` for an interior
node; a `Leaf` contributes its own value regardless of the selector
(`Leaf.append_values`). -/
def nodeValues {α : Type} (node : Node α) (sel : Element → Bool) : List α :=
  match node with
  | .leaf _ _ v => [v]
  | .interior _ _ ns => selValues sel ns

/-- The walk of `InteriorNode.add` over `elements`, mirroring the source
statement by statement.  It returns the trie as mutated by the time the call
returns or raises, together with the raised exception if any:

* `elements[:-1]` are looked up and, when missing, freshly created interior
  nodes are attached (mutations that persist even if a later step raises);
* with `only_if_matches` set, a missing *first* element aborts silently;
* the last element must be a `"member"` element (`notAMember` otherwise),
  must not already be bound (`duplicateSignature` otherwise), and then a
  `Leaf` is attached;
* looking up a child of a `Leaf` reproduces Python's `AttributeError`. -/
def addWalk {α : Type} (signature : PyStr) (value : α) (only_if_matches : Bool)
    (allElems : List Element) :
    List Element → Node α → Nat → Node α × Option TrieErr
  | [], node, _ => (node, none)
  | [last], node, _ =>
    if elementType last ≠ "member" then
      (node, some (.notAMember signature))
    else
      match node with
      | .leaf _ _ _ => (node, some .attributeError)
      | .interior ty sel ns =>
        if hasChildKey ns last then
          (.interior ty sel ns, some (.duplicateSignature signature))
        else
          (.interior ty sel (ns ++ [(last, .leaf (elementType last) signature value)]),
            none)
  | e :: e' :: rest, node, index =>
    match node with
    | .leaf _ _ _ => (node, some .attributeError)
    | .interior ty sel ns =>
      match findChild ns e with
      | some child =>
        let (child', err) := addWalk signature value only_if_matches allElems
          (e' :: rest) child (index + 1)
        (.interior ty sel (setChild ns e child'), err)
      | none =>
        if only_if_matches ∧ index = 0 then
          (.interior ty sel ns, none)
        else
          let selector := elements_to_selector (allElems.take (index + 1))
          let next : Node α := .interior (elementType e) selector []
          let (child', err) := addWalk signature value only_if_matches allElems
            (e' :: rest) next (index + 1)
          (.interior ty sel (ns ++ [(e, child')]), err)

/-- `InteriorNode.add` of `signature_trie.py`.  Returns the post-call trie
together with the raised exception, if any (see `addWalk`). -/
def Node.add {α : Type} (node : Node α) (signature : PyStr) (value : α)
    (only_if_matches : Bool := false) : Node α × Option TrieErr :=
  match signature_to_elements signature with
  | .error e => (node, some e)
  | .ok elements => addWalk signature value only_if_matches elements elements node 0

/-- The lookup loop of `InteriorNode.get_matching_rows`: descend along
`elements`; a missing element yields the empty result, reaching the end
yields `node.values(sel)`, and looking up a child of a `Leaf` reproduces
Python's `AttributeError`. -/
def getRowsWalk {α : Type} (sel : Element → Bool) :
    Node α → List Element → Except TrieErr (List α)
  | node, [] => .ok (nodeValues node sel)
  | node, e :: rest =>
    match node with
    | .leaf _ _ _ => .error .attributeError
    | .interior _ _ ns =>
      match findChild ns e with
      | some child => getRowsWalk sel child rest
      | none => .ok []

/-- The child-key selector used for a `"*"` pattern: exclude `"package"`
children (`lambda x: InteriorNode.element_type(x) != "package"`). -/
def nonPackageSel (e : Element) : Bool := elementType e ≠ "package"

/-- `InteriorNode.get_matching_rows` of `signature_trie.py`. -/
def Node.get_matching_rows {α : Type} (node : Node α) (pattern : PyStr) :
    Except TrieErr (List α) :=
  match signature_to_elements pattern with
  | .error e => .error e
  | .ok elements =>
    let last := elements.getLastD ("", [])
    if elementType last = "wildcard" then
      getRowsWalk (if last.2 = pystr "*" then nonPackageSel else fun _ => true)
        node elements.dropLast
    else
      getRowsWalk (fun _ => true) node elements

/-- `node.child_nodes()` of the source. -/
def Node.child_nodes {α : Type} : Node α → List (Node α)
  | .leaf _ _ _ => []
  | .interior _ _ ns => ns.map Prod.snd

/-- The `type` attribute of a node. -/
def Node.type {α : Type} : Node α → String
  | .leaf ty _ _ => ty
  | .interior ty _ _ => ty

/-- The `selector` attribute of a node. -/
def Node.selector {α : Type} : Node α → PyStr
  | .leaf _ sel _ => sel
  | .interior _ sel _ => sel

end HiddenApi

namespace HiddenApi

/-! ## Pattern generation (`signature_patterns.py`) -/

/-- `dot_package_to_slash_package`. -/
def dot_package_to_slash_package (pkg : PyStr) : PyStr := pyReplaceChar pkg '.' '/'

/-- `slash_package_to_dot_package`. -/
def slash_package_to_dot_package (pkg : PyStr) : PyStr := pyReplaceChar pkg '/' '.'

/-- `slash_packages_to_dot_packages`. -/
def slash_packages_to_dot_packages (pkgs : List PyStr) : List PyStr :=
  pkgs.map slash_package_to_dot_package

/-- `is_split_package`: `split_packages and (pkg in split_packages or '*' in
split_packages)` (the first conjunct is Python truthiness of the set). -/
def is_split_package (split_packages : List PyStr) (pkg : PyStr) : Bool :=
  !split_packages.isEmpty
    && (split_packages.contains pkg || split_packages.contains (pystr "*"))

/-- `matched_by_package_prefix_pattern`: the first declared prefix that the
package `pfx` equals, or properly extends at a `/` boundary; `none` models
the Python return value `False`.  (The Python index `prefix[len(packagePrefix)]`
is in range whenever it is evaluated: `startswith` holds and equality was
already ruled out, so it is modelled with `headD`.) -/
def matched_by_package_prefix_pattern (package_prefixes : List PyStr) (pfx : PyStr) :
    Option PyStr :=
  match package_prefixes with
  | [] => none
  | pp :: rest =>
    if pfx = pp then some pp
    else if pyStartsWith pfx pp ∧ (pfx.drop pp.length).headD ' ' = '/' then some pp
    else matched_by_package_prefix_pattern rest pfx

/-- Python truthiness of the result of `matched_by_package_prefix_pattern`
(`False` and the empty string are falsy). -/
def optTruthy : Option PyStr → Bool
  | none => false
  | some p => p ≠ []

/-- `validate_package_is_not_matched_by_package_prefix`. -/
def validate_package_is_not_matched_by_package_prefix (package_type : PyStr)
    (pkg : PyStr) (package_prefixes : List PyStr) : List PyStr :=
  match matched_by_package_prefix_pattern package_prefixes pkg with
  | some pp =>
    if pp ≠ [] then
      [package_type ++ pystr " " ++ slash_package_to_dot_package pkg
        ++ pystr " is matched by package prefix " ++ slash_package_to_dot_package pp]
    else []
  | none => []

/-- `validate_package_prefixes` of `signature_patterns.py`. -/
def validate_package_prefixes (split_packages single_packages
    package_prefixes : List PyStr) : List PyStr :=
  if package_prefixes.length = 0 then []
  else
    (split_packages.flatMap (fun split_package =>
      if split_package = pystr "*" then
        [pystr "split package '*' conflicts with all package prefixes "
          ++ List.intercalate (pystr ", ")
              (slash_packages_to_dot_packages package_prefixes)
          ++ pystr "\n    add split_packages:[] to fix"]
      else
        validate_package_is_not_matched_by_package_prefix (pystr "split package")
          split_package package_prefixes))
    ++ (single_packages.flatMap (fun single_package =>
      validate_package_is_not_matched_by_package_prefix (pystr "single package")
        single_package package_prefixes))

/-- `validate_split_packages`. -/
def validate_split_packages (split_packages : List PyStr) : List PyStr :=
  if split_packages.contains (pystr "*") ∧ split_packages.length > 1 then
    [pystr "split packages are invalid as they contain both the wildcard (*) and specific packages, use the wildcard or specific packages, not a mixture"]
  else []

/-- `validate_single_packages`. -/
def validate_single_packages (split_packages single_packages : List PyStr) :
    List PyStr :=
  let overlaps := single_packages.filter (fun p => split_packages.contains p)
  if overlaps ≠ [] then
    [pystr "single_packages and split_packages overlap, please ensure the following packages are only present in one:"
      ++ (overlaps.flatMap (fun o => pystr "\n    " ++ o))]
  else []

/-- Python `set.add` modelled on an insertion-ordered list (the final results
of `produce_patterns_from_stream` are sorted, so iteration order of the
intermediate sets never shows in the output). -/
def setAdd (s : List PyStr) (x : PyStr) : List PyStr :=
  if s.contains x then s else s ++ [x]

/-- The package computed for a signature by the first loop of
`produce_patterns_from_stream`: the qualified class name truncated at its
last `/`. -/
def pkg_of (signature : PyStr) : PyStr :=
  (pyRSplit1 '/'
    ((pySplit (pystr ";->") (pyRemovePrefix signature (pystr "L"))).headD [])).headD []

/-- The per-row body of the first loop of `produce_patterns_from_stream`.
State: the `patterns` set and the `unmatched_packages` set. -/
def producePatternsRow (split_packages single_packages : List PyStr)
    (st : List PyStr × List PyStr) (signature : PyStr) : List PyStr × List PyStr :=
  let text := pyRemovePrefix signature (pystr "L")
  let qualified_class_name := (pySplit (pystr ";->") text).headD []
  let pkg := (pyRSplit1 '/' qualified_class_name).headD []
  if is_split_package split_packages pkg then
    (setAdd st.1 ((pySplit1 (pystr "$") qualified_class_name).headD []), st.2)
  else if single_packages.contains pkg then
    (setAdd st.1 (pkg ++ pystr "/*"), st.2)
  else
    (st.1, setAdd st.2 pkg)

/-- `produce_patterns_from_stream` of `signature_patterns.py`, over the list
of signatures read from the stream.  Returns `(patterns, errors)`. -/
def produce_patterns_from_stream (signatures : List PyStr)
    (split_packages single_packages package_prefixes : List PyStr) :
    List PyStr × List PyStr :=
  let st := signatures.foldl (producePatternsRow split_packages single_packages)
    ([], [])
  let unmatched_packages := st.2.filter
    (fun p => !optTruthy (matched_by_package_prefix_pattern package_prefixes p))
  let errors : List PyStr :=
    if unmatched_packages ≠ [] then
      [pystr "The following packages were unexpected, please add them to one of the hidden_api properties, split_packages, single_packages or package_prefixes:"
        ++ ((pySorted unmatched_packages).flatMap
            (fun p => pystr "\n    " ++ slash_package_to_dot_package p))]
    else []
  let patterns := st.1.filter
    (fun p => !optTruthy (matched_by_package_prefix_pattern package_prefixes p))
  let patterns := patterns ++ package_prefixes.map (fun p => p ++ pystr "/**")
  (pySorted patterns, errors)

/-! ## Flag comparison (`verify_overlaps.py`) -/

/-- The keys of a signature→flags dict (modelled as an association list with
unique keys, in insertion order, exactly like a Python dict). -/
def dictKeys (d : List (PyStr × List PyStr)) : List PyStr := d.map Prod.fst

/-- `signature in dict`. -/
def dictContains (d : List (PyStr × List PyStr)) (k : PyStr) : Bool :=
  (dictKeys d).contains k

/-- `dict.get(signature, {})` followed by `.get(None, [])`: the flag list of
a signature, `none` when the signature is absent. -/
def dictGet (d : List (PyStr × List PyStr)) (k : PyStr) : Option (List PyStr) :=
  match d with
  | [] => none
  | (a, b) :: r => if a = k then some b else dictGet r k

/-- `compare_signature_flags` of `verify_overlaps.py`.  A dict entry
`(signature, flags)` models the CSV row `{"signature": ..., None: flags}`;
`row.get(None, [])` is the `.getD []`.  Note the asymmetry of the source: a
signature missing from the monolithic dict contributes `[]`, while a
signature missing from the modular dict contributes the hard-coded
`["blocked"]`. -/
def compare_signature_flags (monolithicFlagsDict modularFlagsDict :
    List (PyStr × List PyStr)) : List (PyStr × List PyStr × List PyStr) :=
  let allSignatures := pySorted
    ((dictKeys monolithicFlagsDict ++ dictKeys modularFlagsDict).dedup)
  allSignatures.filterMap (fun signature =>
    let monolithicFlags := (dictGet monolithicFlagsDict signature).getD []
    let modularFlags :=
      if dictContains modularFlagsDict signature then
        (dictGet modularFlagsDict signature).getD []
      else [pystr "blocked"]
    if monolithicFlags ≠ modularFlags then
      some (signature, modularFlags, monolithicFlags)
    else none)

end HiddenApi

namespace HiddenApi

/-! ## Package classification (`analyze_bcpf.py`) -/

/-- `ClassProvider` of `analyze_bcpf.py`: the provenance of a class. -/
inductive ClassProvider where
  | bcpf
  | other
  deriving DecidableEq, Repr

/-- `_FAKE_MEMBER` of `analyze_bcpf.py`. -/
def fakeMember : PyStr := pystr ";->fake()V"

/-- `set(child.get_matching_rows(pat))` for the constant patterns `"**"` and
`"*"`, which never raise; the set comparisons of the source are expressed on
the returned list (`providersEq`, membership). -/
def providerRows (child : Node ClassProvider) (pat : PyStr) : List ClassProvider :=
  match child.get_matching_rows pat with
  | .ok vs => vs
  | .error _ => []

/-- `set(vals) == {p}` for a provider list. -/
def providersEq (vals : List ClassProvider) (p : ClassProvider) : Bool :=
  !vals.isEmpty && vals.all (fun v => v = p)

/-- The three accumulators threaded through
`recurse_hiddenapi_packages_trie` (`split_packages`, `single_packages`,
`package_prefixes`), each appended to in traversal order. -/
structure PackageProps where
  split_packages : List PyStr
  single_packages : List PyStr
  package_prefixes : List PyStr
  deriving DecidableEq, Repr

/-- The non-recursive classification step of
`recurse_hiddenapi_packages_trie` for one child node: the updated
accumulators and whether the recursion enters the child's subtree.

* non-`"package"` children are skipped entirely;
* if the recursive (`"**"`) provider set is exactly `{BCPF}` the package is a
  package prefix and the subtree is not entered; if it is exactly `{OTHER}`
  the subtree is likewise not entered;
* otherwise the direct (`"*"`) provider set decides: exactly `{BCPF}` makes a
  single package, a mix containing `BCPF` makes a split package, and in every
  such case the recursion continues into the child. -/
def classifyChild (child : Node ClassProvider) (st : PackageProps) :
    PackageProps × Bool :=
  if child.type ≠ "package" then (st, false)
  else
    let package := pyReplaceChar child.selector '/' '.'
    let providers2 := providerRows child (pystr "**")
    if providersEq providers2 .bcpf then
      ({ st with package_prefixes := st.package_prefixes ++ [package] }, false)
    else if providersEq providers2 .other then
      (st, false)
    else
      let providers1 := providerRows child (pystr "*")
      let st' :=
        if providers1.isEmpty then st
        else if providersEq providers1 .bcpf then
          { st with single_packages := st.single_packages ++ [package] }
        else if providersEq providers1 .other then st
        else if providers1.contains .bcpf then
          { st with split_packages := st.split_packages ++ [package] }
        else st
      (st', true)

mutual

/-- `recurse_hiddenapi_packages_trie` of `analyze_bcpf.py`: iterate over the
child nodes of `node`, handling each `"package"`-typed child via
`classifyChild` and recursing into its subtree when classification says
to continue. -/
def recurseTrie (node : Node ClassProvider) (st : PackageProps) : PackageProps :=
  match node with
  | .leaf _ _ _ => st
  | .interior _ _ ns => recurseChildren ns st

/-- The `for child in nodes` loop of `recurse_hiddenapi_packages_trie`. -/
def recurseChildren (ns : List (Element × Node ClassProvider)) (st : PackageProps) :
    PackageProps :=
  match ns with
  | [] => st
  | (_, child) :: rest =>
    let r := classifyChild child st
    recurseChildren rest (if r.2 then recurseTrie child r.1 else r.1)

end

/-- `compute_hiddenapi_package_properties` of `analyze_bcpf.py`, abstracted
over its two inputs: `classes` (the classes of the bootclasspath_fragment,
`self.classes`) and the lines of the monolithic flags file.  Classes are
inserted with provider `BCPF`; classes found in the monolithic flags that are
neither already seen nor provided by the fragment are inserted with provider
`OTHER` and `only_if_matches=True`.  (The adds raise no exception for the
class names considered here; the returned state ignores the exception slot
exactly as far as the claims below evaluate it on such inputs.) -/
def compute_hiddenapi_package_properties (classes : List PyStr)
    (monolithicLines : List PyStr) : PackageProps :=
  let sorted_classes := pySorted classes
  let trie : Node ClassProvider := sorted_classes.foldl
    (fun t c => (t.add (c ++ fakeMember) .bcpf).1) signature_trie
  let step := fun (st : Node ClassProvider × List PyStr) (line : PyStr) =>
    let signature := (pySplit (pystr ",") line).headD []
    let class_name := (pySplit (pystr ";->") signature).headD []
    if !st.2.contains class_name ∧ !classes.contains class_name then
      ((st.1.add (class_name ++ fakeMember) .other true).1, st.2 ++ [class_name])
    else st
  let (trie, _) := monolithicLines.foldl step (trie, [])
  recurseTrie trie ⟨[], [], []⟩

end HiddenApi

namespace HiddenApi

/-! ## Claim-support definitions -/

/-- Decidable equality for the results of `signature_to_elements` and
`Node.get_matching_rows`. -/
instance {ε α : Type} [DecidableEq ε] [DecidableEq α] : DecidableEq (Except ε α) :=
  fun a b =>
    match a, b with
    | .ok x, .ok y => decidable_of_iff (x = y) (by constructor <;> (intro hxy; first | rw [hxy] | injection hxy))
    | .error x, .error y => decidable_of_iff (x = y) (by constructor <;> (intro hxy; first | rw [hxy] | injection hxy))
    | .ok _, .error _ => .isFalse (fun hc => Except.noConfusion hc)
    | .error _, .ok _ => .isFalse (fun hc => Except.noConfusion hc)

/-- The three grammar-error cases exactly as the claim about
`signature_to_elements` words them: (1) the final path segment contains `*`
but is not exactly `*` or `**`; (2) a wildcard final segment combined with a
member suffix; (3) a final segment that is entirely lower case with no
wildcard *and no member suffix*.  (Stated from the claim for comparison with
the source behaviour; the source does not require the absence of a member
suffix in case (3).) -/
def claimedGrammarErrorCases (s : PyStr) : Prop :=
  (pyContainsChar (lastSegment s) '*' = true
    ∧ lastSegment s ≠ pystr "*" ∧ lastSegment s ≠ pystr "**")
  ∨ ((lastSegment s = pystr "*" ∨ lastSegment s = pystr "**") ∧ memberParts s ≠ [])
  ∨ (pyContainsChar (lastSegment s) '*' = false ∧ memberParts s = []
    ∧ pyIsLower (lastSegment s) = true)

instance (s : PyStr) : Decidable (claimedGrammarErrorCases s) := by
  unfold claimedGrammarErrorCases; infer_instance

/-- `compare_signature_flags` as the spec describes it, with the treatment of
a signature missing from the modular dict as an explicit caller-supplied
parameter (`missingModularFlags`; the spec names the two occurring policies
"empty" `[]` and implicit `["blocked"]`).  Stated from the spec's words, for
comparison with the hard-coded behaviour of the source. -/
def compare_signature_flags_with_policy (missingModularFlags : List PyStr)
    (monolithicFlagsDict modularFlagsDict : List (PyStr × List PyStr)) :
    List (PyStr × List PyStr × List PyStr) :=
  let allSignatures := pySorted
    ((dictKeys monolithicFlagsDict ++ dictKeys modularFlagsDict).dedup)
  allSignatures.filterMap (fun signature =>
    let monolithicFlags := (dictGet monolithicFlagsDict signature).getD []
    let modularFlags :=
      if dictContains modularFlagsDict signature then
        (dictGet modularFlagsDict signature).getD []
      else missingModularFlags
    if monolithicFlags ≠ modularFlags then
      some (signature, modularFlags, monolithicFlags)
    else none)

end HiddenApi

namespace HiddenApi

/-! ## Trie state predicates and path views (claim-support definitions) -/

/-- `keysNodupB ks` : the keys of a child dict are pairwise distinct. -/
def keysNodupB : List Element → Bool
  | [] => true
  | k :: rest => !rest.contains k && keysNodupB rest

mutual

/-- Every child dict in the trie has pairwise-distinct keys (true of every
trie the source ever builds, since `add` only inserts absent keys). -/
def wfKeys {α : Type} : Node α → Bool
  | .leaf _ _ _ => true
  | .interior _ _ ns => keysNodupB (ns.map Prod.fst) && wfKeysL ns

/-- `wfKeys` over a child dict. -/
def wfKeysL {α : Type} : List (Element × Node α) → Bool
  | [] => true
  | (_, c) :: rest => wfKeys c && wfKeysL rest

end

mutual

/-- The element paths from a node to each of its descendant leaves, paired
with the leaf values, in child-dict (DFS) order. -/
def leafPaths {α : Type} : Node α → List (List Element × α)
  | .leaf _ _ v => [([], v)]
  | .interior _ _ ns => leafPathsL ns

/-- `leafPaths` over a child dict. -/
def leafPathsL {α : Type} : List (Element × Node α) → List (List Element × α)
  | [] => []
  | (k, c) :: rest =>
    (leafPaths c).map (fun p => (k :: p.1, p.2)) ++ leafPathsL rest

end

/-- Whether a node reachable by the element path `es` exists in the trie. -/
def hasNodePath {α : Type} : Node α → List Element → Bool
  | _, [] => true
  | .leaf _ _ _, _ :: _ => false
  | .interior _ _ ns, e :: rest =>
    match findChild ns e with
    | some c => hasNodePath c rest
    | none => false

/-- Tries reachable from `signature_trie()` by (possibly failing) `add`
calls: the states the source can ever observe. -/
inductive Built {α : Type} : Node α → Prop where
  | empty : Built signature_trie
  | step (t : Node α) (s : PyStr) (v : α) (b : Bool) :
      Built t → Built (t.add s v b).1

/-- Insert a list of signature/value pairs in order, stopping at the first
exception, as `read_flag_trie_from_stream` does. -/
def addAll {α : Type} : Node α → List (PyStr × α) → Node α × Option TrieErr
  | t, [] => (t, none)
  | t, (s, v) :: rest =>
    match t.add s v with
    | (t', none) => addAll t' rest
    | (t', some e) => (t', some e)

/-- The `"package"` elements of a `/`-separated package path, as
`signature_to_elements` produces them for a pattern `p ++ "/**"` or
`p ++ "/*"`. -/
def pkgElems (p : PyStr) : List Element :=
  (pySplit (pystr "/") p).map (fun x => ("package", x))

/-- The leaf paths selected by a trie query: the query walks to the node at
`es` and collects every descendant leaf, where `sel` filters the first child
step (always true except for a `"*"` pattern, which excludes `"package"`
children). -/
def pathMatches (es : List Element) (sel : Element → Bool)
    (p : List Element) : Bool :=
  es.isPrefixOf p &&
    (match p.drop es.length with
     | [] => true
     | k :: _ => sel k)

/-- Whether `sep` occurs (as a contiguous substring) in `s`. -/
def occursIn (sep : PyStr) : PyStr → Bool
  | [] => sep.isPrefixOf []
  | c :: rest => sep.isPrefixOf (c :: rest) || occursIn sep rest

/-- A separator none of whose proper nonempty suffixes is one of its own
prefixes; `"/"`, `"$"` and `";->"` all satisfy this, and it rules out
occurrences straddling a separator boundary. -/
def sepOverlapFree (sep : PyStr) : Prop :=
  ∀ k, 0 < k → k < sep.length → sep.drop k ≠ sep.take (sep.length - k)

instance (sep : PyStr) : Decidable (sepOverlapFree sep) :=
  decidable_of_iff
    (∀ k, k < sep.length → 0 < k → sep.drop k ≠ sep.take (sep.length - k))
    ⟨fun h k h1 h2 => h k h2 h1, fun h k h1 h2 => h k h2 h1⟩

/-- `p ++ sep ++ q1 ++ sep ++ q2 ++ ...`: the string obtained by gluing the
pieces back together with the separator, i.e. Python `sep.join(p :: ps)`. -/
def glueSep (sep : PyStr) (p : PyStr) (ps : List PyStr) : PyStr :=
  p ++ (ps.map (fun x => sep ++ x)).flatten

/-- The selector text contributed by the elements after the first, given the
preceding element type: separator, value, separator, value, ...  (This is the
loop of `elements_to_selector` once the signature accumulator is nonempty.) -/
def renderTail (prev : String) : List Element → PyStr
  | [] => []
  | (ty, v) :: rest => selectorSeparator prev ty ++ v ++ renderTail ty rest

end HiddenApi

namespace HiddenApi

/-! ## The flag trie of `verify_overlaps.py` (`InteriorNode`/`Leaf`) -/

/-- `InteriorNode.signatureToElements` of `verify_overlaps.py`.  Unlike
`signature_to_elements` of `signature_trie.py` it performs no lower-case and
no invalid-wildcard check, and it does not strip a trailing `';'` before
splitting the class name on `'$'`; its only raise is the wildcard-plus-member
clash.  Python's flat element strings are modelled as tagged pairs:
`"package:x"` as `("package", x)`, `"class:x"` as `("class", x)`,
`"member:x"` as `("member", x)`, and the bare wildcard strings `"*"`/`"**"`
as `("wildcard", "*")`/`("wildcard", "**")`.  The encoding is injective, so
dict-key equality is pair equality; `startswith("member:")` and
`startswith("package:")` become tag tests, and `element in ("*", "**")`
becomes the `"wildcard"` tag test (only wildcard elements are bare, and they
are always last). -/
def signatureToElements (signature : PyStr) : Except TrieErr (List Element) :=
  if lastSegment signature = pystr "*" ∨ lastSegment signature = pystr "**" then
    if memberParts signature ≠ [] then
      .error (.wildcardMemberOverlap signature (lastSegment signature)
        ((memberParts signature).headD []))
    else
      .ok (((pathSegments signature).dropLast).map (fun x => ("package", x))
        ++ [("wildcard", lastSegment signature)])
  else
    .ok (((pathSegments signature).dropLast).map (fun x => ("package", x))
      ++ (pySplit (pystr "$") (lastSegment signature)).map (fun x => ("class", x))
      ++ (memberParts signature).map (fun x => ("member", x)))

/-- `InteriorNode()` of `verify_overlaps.py`: a fresh node, which carries no
type or selector metadata (modelled by empty strings on the shared `Node`
type; the queries never read them). -/
def interiorNode {α : Type} : Node α := .interior "" [] []

/-- The walk of `InteriorNode.add` of `verify_overlaps.py` over `elements`:
the same mutation-before-raise structure as `signature_trie.py`'s `add`, but
with no `only_if_matches` mode and with metadata-free fresh children.  As
there, reading `.nodes` off a `Leaf` reproduces Python's `AttributeError`. -/
def addWalkOverlap {α : Type} (signature : PyStr) (value : α) :
    List Element → Node α → Node α × Option TrieErr
  | [], node => (node, none)
  | [last], node =>
    if elementType last ≠ "member" then
      (node, some (.notAMember signature))
    else
      match node with
      | .leaf _ _ _ => (node, some .attributeError)
      | .interior ty sel ns =>
        if hasChildKey ns last then
          (.interior ty sel ns, some (.duplicateSignature signature))
        else
          (.interior ty sel (ns ++ [(last, .leaf "" [] value)]), none)
  | e :: e2 :: rest, node =>
    match node with
    | .leaf _ _ _ => (node, some .attributeError)
    | .interior ty sel ns =>
      match findChild ns e with
      | some child =>
        let (child2, err) := addWalkOverlap signature value (e2 :: rest) child
        (.interior ty sel (setChild ns e child2), err)
      | none =>
        let (child2, err) := addWalkOverlap signature value (e2 :: rest)
          (.interior "" [] [])
        (.interior ty sel (ns ++ [(e, child2)]), err)

/-- `InteriorNode.add` of `verify_overlaps.py`.  Returns the post-call trie
together with the raised exception, if any. -/
def Node.addOverlap {α : Type} (node : Node α) (signature : PyStr) (value : α) :
    Node α × Option TrieErr :=
  match signatureToElements signature with
  | .error e => (node, some e)
  | .ok elements => addWalkOverlap signature value elements node

/-- `InteriorNode.getMatchingRows` of `verify_overlaps.py`: decompose the
pattern with `signatureToElements`, drop a terminal wildcard element
(restricting to non-`"package"` children of the reached node for `"*"`), walk
the remaining elements (an absent element yields the empty result, a `Leaf`
on the way raises `AttributeError`) and flatten the reached node's
`values(selector)`. -/
def Node.getMatchingRows {α : Type} (node : Node α) (pattern : PyStr) :
    Except TrieErr (List α) :=
  match signatureToElements pattern with
  | .error e => .error e
  | .ok elements =>
    let last := elements.getLastD ("", [])
    if elementType last = "wildcard" then
      getRowsWalk (if last.2 = pystr "*" then nonPackageSel else fun _ => true)
        node elements.dropLast
    else
      getRowsWalk (fun _ => true) node elements

end HiddenApi

namespace HiddenApi

/-! ## Equations of `pySplit` -/

theorem pySplitGo_fuel {sep : PyStr} {s : PyStr} {fuel fuel' : Nat}
    (h : s.length ≤ fuel) (h' : s.length ≤ fuel') :
    pySplitGo sep fuel s = pySplitGo sep fuel' s := by
  induction fuel generalizing s fuel' with
  | zero =>
    cases s with
    | nil => cases fuel' <;> rfl
    | cons c rest => simp at h
  | succ n ih =>
    cases s with
    | nil => cases fuel' <;> rfl
    | cons c rest =>
      cases fuel' with
      | zero => simp at h'
      | succ m =>
        have hr : rest.length ≤ n := by simp only [List.length_cons] at h; omega
        have hr' : rest.length ≤ m := by simp only [List.length_cons] at h'; omega
        have hd : (rest.drop (sep.length - 1)).length ≤ n := by
          simp only [List.length_drop]; omega
        have hd' : (rest.drop (sep.length - 1)).length ≤ m := by
          simp only [List.length_drop]; omega
        simp only [pySplitGo]
        rw [ih hd hd', ih hr hr']

theorem pySplit_empty_sep (s : PyStr) : pySplit [] s = [s] := rfl

theorem pySplit_nil {sep : PyStr} (h : sep ≠ []) : pySplit sep [] = [[]] := by
  cases sep with
  | nil => exact absurd rfl h
  | cons a as => rfl

/-- The natural recursion equation of the Python scan: at each position,
either the separator matches and a piece boundary is emitted (skipping the
separator), or the head character is prepended to the first piece of the
split of the tail. -/
theorem pySplit_cons {sep : PyStr} (hsep : sep ≠ []) (c : Char) (rest : PyStr) :
    pySplit sep (c :: rest) =
      if sep.isPrefixOf (c :: rest) then
        [] :: pySplit sep ((c :: rest).drop sep.length)
      else
        match pySplit sep rest with
        | [] => [[c]]
        | p :: ps => (c :: p) :: ps := by
  cases sep with
  | nil => exact absurd rfl hsep
  | cons a as =>
    show pySplitGo (a :: as) (rest.length + 1) (c :: rest) = _
    simp only [pySplitGo]
    by_cases hp : (a :: as).isPrefixOf (c :: rest)
    · simp only [hp, if_true]
      have hdrop : (c :: rest).drop (a :: as).length = rest.drop ((a :: as).length - 1) := by
        simp [List.length_cons]
      rw [hdrop]
      show [] :: pySplitGo (a :: as) rest.length (rest.drop ((a :: as).length - 1)) =
        [] :: pySplitGo (a :: as) (rest.drop ((a :: as).length - 1)).length
          (rest.drop ((a :: as).length - 1))
      rw [pySplitGo_fuel
        (show (rest.drop ((a :: as).length - 1)).length ≤ rest.length by
          simp only [List.length_drop]; omega)
        (Nat.le_refl _)]
    · simp only [hp, if_false]
      show (match pySplitGo (a :: as) rest.length rest with
        | [] => [[c]]
        | p :: ps => (c :: p) :: ps) = _
      rfl

end HiddenApi

namespace HiddenApi

/-! ## Basic lemmas -/

theorem mem_pySorted {l : List PyStr} {x : PyStr} : x ∈ pySorted l ↔ x ∈ l :=
  (List.perm_insertionSort _ l).mem_iff

theorem dictGet_some_mem_keys {d : List (PyStr × List PyStr)} {s : PyStr}
    {v : List PyStr} (h : dictGet d s = some v) : s ∈ dictKeys d := by
  induction d with
  | nil => exact absurd h (by simp [dictGet])
  | cons kv rest ih =>
    obtain ⟨a, b⟩ := kv
    by_cases hak : a = s
    · subst hak
      exact List.mem_cons_self a (dictKeys rest)
    · rw [show dictGet ((a, b) :: rest) s = if a = s then some b else dictGet rest s
        from rfl, if_neg hak] at h
      exact List.mem_cons_of_mem a (ih h)

theorem dictGet_none_of_not_mem {d : List (PyStr × List PyStr)} {s : PyStr}
    (h : s ∉ dictKeys d) : dictGet d s = none := by
  induction d with
  | nil => rfl
  | cons kv rest ih =>
    obtain ⟨a, b⟩ := kv
    rw [show dictKeys ((a, b) :: rest) = a :: dictKeys rest from rfl,
      List.mem_cons, not_or] at h
    rw [show dictGet ((a, b) :: rest) s = if a = s then some b else dictGet rest s
      from rfl, if_neg (fun hh => h.1 hh.symm)]
    exact ih h.2

theorem dictContains_iff {d : List (PyStr × List PyStr)} {s : PyStr} :
    dictContains d s = true ↔ s ∈ dictKeys d := by
  simp [dictContains, List.elem_iff]

/-- Membership characterization for `compare_signature_flags`: an entry is
produced exactly for a signature of either dict whose two flag lists (with
the source's hard-coded missing-signature treatments) differ. -/
theorem compare_signature_flags_mem (mono modular : List (PyStr × List PyStr))
    (s : PyStr) (modf mf : List PyStr) :
    (s, modf, mf) ∈ compare_signature_flags mono modular ↔
      (s ∈ dictKeys mono ∨ s ∈ dictKeys modular)
      ∧ mf = (dictGet mono s).getD []
      ∧ modf = (if dictContains modular s then (dictGet modular s).getD []
          else [pystr "blocked"])
      ∧ mf ≠ modf := by
  unfold compare_signature_flags
  rw [List.mem_filterMap]
  constructor
  · rintro ⟨a, ha, hf⟩
    rw [mem_pySorted, List.mem_dedup, List.mem_append] at ha
    dsimp only at hf
    by_cases hne : (dictGet mono a).getD [] =
        (if dictContains modular a then (dictGet modular a).getD []
          else [pystr "blocked"])
    · rw [if_neg (not_not_intro hne)] at hf
      cases hf
    · rw [if_pos hne] at hf
      rw [Option.some.injEq, Prod.mk.injEq, Prod.mk.injEq] at hf
      obtain ⟨h1, h2, h3⟩ := hf
      subst h1
      refine ⟨ha, h3.symm, h2.symm, ?_⟩
      rw [h2, h3] at hne
      exact hne
  · rintro ⟨hmem, hmf, hmodf, hne⟩
    refine ⟨s, ?_, ?_⟩
    · rw [mem_pySorted, List.mem_dedup, List.mem_append]
      exact hmem
    · dsimp only
      subst hmf
      subst hmodf
      rw [if_pos hne]

end HiddenApi

namespace HiddenApi

/-! ## Claim theorems: package classification (C1) -/

/-- C1, counterexample: over a classification trie containing only the leaf
`a.b.c.D` owned by this module — and no other-owned leaves anywhere —
`PackageClassifier` does **not** put `a.b.c` into the package-prefixes
result set, contrary to the claim: it stops at the outermost uniformly-owned
package and records `a` instead. -/
theorem claim_C1_counterexample :
    (compute_hiddenapi_package_properties [pystr "La/b/c/D"] []).package_prefixes
      = [pystr "a"]
    ∧ (pystr "a.b.c") ∉
      (compute_hiddenapi_package_properties [pystr "La/b/c/D"] []).package_prefixes := by
  decide

/-- C1, amended: over classes `{a.b.C (mine), a.b.D (other), a.b.E (other)}`
the classifier puts `a.b` into the split-packages result (as claimed), and
over `{a.b.c.D (mine)}` with no other-owned leaves anywhere it puts the
*outermost* uniformly-owned package `a` — not `a.b.c` — into the
package-prefixes result, recursion stopping there. -/
theorem claim_C1_amended :
    compute_hiddenapi_package_properties [pystr "La/b/C"]
      [pystr "La/b/C;->m()V", pystr "La/b/D;->m()V", pystr "La/b/E;->m()V"]
      = ⟨[pystr "a.b"], [], []⟩
    ∧ compute_hiddenapi_package_properties [pystr "La/b/c/D"] []
      = ⟨[], [], [pystr "a"]⟩ := by
  decide

/-! ## Claim theorems: flag-comparison missing-signature policy (C2) -/

/-- C2, counterexample: the treatment of a signature that is present in the
monolithic flag set but missing from the modular one is *not* a caller
parameter of `compare_signature_flags` — the function takes no such
parameter and behaves exactly like the spec-modelled parameterized
comparison fixed to the implicit-`"blocked"` policy, and differently from
the empty-flag-list policy, on this input. -/
theorem claim_C2_counterexample :
    compare_signature_flags [(pystr "Ls/C;->m()V", [])] []
      = [(pystr "Ls/C;->m()V", [pystr "blocked"], [])]
    ∧ compare_signature_flags [(pystr "Ls/C;->m()V", [])] []
      = compare_signature_flags_with_policy [pystr "blocked"]
          [(pystr "Ls/C;->m()V", [])] []
    ∧ compare_signature_flags [(pystr "Ls/C;->m()V", [])] []
      ≠ compare_signature_flags_with_policy [] [(pystr "Ls/C;->m()V", [])] [] := by
  decide

/-- C2, amended: the missing-signature treatment of
`compare_signature_flags` is hard-coded, not caller-supplied: a signature
missing from the modular dict is compared as the implicit flag list
`["blocked"]` (an entry is reported iff its monolithic flags are not exactly
`["blocked"]`), and a signature missing from the monolithic dict is compared
as the empty flag list (an entry is reported iff its modular flags are
nonempty). -/
theorem claim_C2_amended :
    (∀ (mono modular : List (PyStr × List PyStr)) (s : PyStr) (mf : List PyStr),
      dictContains modular s = false → dictGet mono s = some mf →
      ((s, [pystr "blocked"], mf) ∈ compare_signature_flags mono modular ↔
        mf ≠ [pystr "blocked"]))
    ∧ (∀ (mono modular : List (PyStr × List PyStr)) (s : PyStr) (fl : List PyStr),
      dictContains mono s = false → dictGet modular s = some fl →
      ((s, fl, []) ∈ compare_signature_flags mono modular ↔ fl ≠ [])) := by
  constructor
  · intro mono modular s mf hmod hmono
    rw [compare_signature_flags_mem]
    constructor
    · rintro ⟨-, -, -, hne⟩
      exact hne
    · intro hne
      refine ⟨Or.inl (dictGet_some_mem_keys hmono), by rw [hmono]; rfl,
        by rw [hmod]; rfl, hne⟩
  · intro mono modular s fl hmono hmod
    have hmonoGet : dictGet mono s = none :=
      dictGet_none_of_not_mem (fun hm => by
        rw [← dictContains_iff] at hm; rw [hm] at hmono; cases hmono)
    have hcont : dictContains modular s = true :=
      dictContains_iff.mpr (dictGet_some_mem_keys hmod)
    rw [compare_signature_flags_mem]
    constructor
    · rintro ⟨-, -, -, hne⟩
      exact fun h => hne h.symm
    · intro hne
      refine ⟨Or.inr (dictGet_some_mem_keys hmod), by rw [hmonoGet]; rfl,
        by rw [hcont, hmod]; rfl, fun h => hne h.symm⟩

/-- C2, witness for the amended theorem at a concrete input. -/
theorem claim_C2_amended_witness :
    (pystr "Ls/C;->m()V", [pystr "blocked"], [pystr "public-api"])
      ∈ compare_signature_flags [(pystr "Ls/C;->m()V", [pystr "public-api"])] [] := by
  exact (claim_C2_amended.1 [(pystr "Ls/C;->m()V", [pystr "public-api"])] []
    (pystr "Ls/C;->m()V") [pystr "public-api"] (by decide) (by decide)).mpr (by decide)

end HiddenApi

namespace HiddenApi

/-! ## Claim theorems: package-prefix validation (C3) -/

theorem validate_pkg_not_matched_eq_nil (ptype pkg prefixes) :
    validate_package_is_not_matched_by_package_prefix ptype pkg prefixes = [] ↔
      optTruthy (matched_by_package_prefix_pattern prefixes pkg) = false := by
  unfold validate_package_is_not_matched_by_package_prefix optTruthy
  rcases matched_by_package_prefix_pattern prefixes pkg with _ | pp
  · simp
  · by_cases hpp : pp = []
    · subst hpp
      simp
    · simp only [if_pos hpp]
      constructor
      · intro h
        exact absurd h (by simp)
      · intro h
        rw [decide_eq_false_iff_not, not_not] at h
        exact absurd h hpp

theorem validate_pkg_not_matched_eq (ptype pkg : PyStr) (prefixes : List PyStr)
    (pp : PyStr)
    (hm : matched_by_package_prefix_pattern prefixes pkg = some pp)
    (hpp : pp ≠ []) :
    validate_package_is_not_matched_by_package_prefix ptype pkg prefixes
      = [ptype ++ pystr " " ++ slash_package_to_dot_package pkg
          ++ pystr " is matched by package prefix "
          ++ slash_package_to_dot_package pp] := by
  unfold validate_package_is_not_matched_by_package_prefix
  rw [hm]
  exact if_pos hpp

/-- C3, counterexample: the split package `a` is itself a prefix-match of the
declared package-prefix `a/b` (in the code's own prefix-pattern sense,
`matched_by_package_prefix_pattern ["a"] "a/b" = "a"`), yet
`validate_package_prefixes` raises no error for it: only the opposite
direction — a package prefix-matched *by* a declared prefix — is rejected. -/
theorem claim_C3_counterexample :
    validate_package_prefixes [pystr "a"] [] [pystr "a/b"] = []
    ∧ matched_by_package_prefix_pattern [pystr "a"] (pystr "a/b")
      = some (pystr "a") := by
  decide

/-- C3, amended: `validate_package_prefixes` rejects exactly the split/single
packages that are prefix-matched *by* a declared package-prefix (equal to it,
or extending it at a `/` boundary), with an error naming both the package and
the matching prefix (plus the special `'*'` split marker whenever any prefix
is declared); a package that is merely a proper prefix *of* a declared
package-prefix is not rejected. -/
theorem claim_C3_amended :
    ∀ splits singles prefixes : List PyStr,
      (validate_package_prefixes splits singles prefixes = [] ↔
        prefixes = [] ∨
          (splits.contains (pystr "*") = false ∧
            (∀ p ∈ splits,
              optTruthy (matched_by_package_prefix_pattern prefixes p) = false) ∧
            (∀ p ∈ singles,
              optTruthy (matched_by_package_prefix_pattern prefixes p) = false)))
      ∧ (∀ p pp, p ∈ splits → p ≠ pystr "*" → prefixes ≠ [] →
          matched_by_package_prefix_pattern prefixes p = some pp → pp ≠ [] →
          (pystr "split package" ++ pystr " " ++ slash_package_to_dot_package p
            ++ pystr " is matched by package prefix "
            ++ slash_package_to_dot_package pp)
            ∈ validate_package_prefixes splits singles prefixes)
      ∧ (∀ p pp, p ∈ singles → prefixes ≠ [] →
          matched_by_package_prefix_pattern prefixes p = some pp → pp ≠ [] →
          (pystr "single package" ++ pystr " " ++ slash_package_to_dot_package p
            ++ pystr " is matched by package prefix "
            ++ slash_package_to_dot_package pp)
            ∈ validate_package_prefixes splits singles prefixes) := by
  intro splits singles prefixes
  by_cases hpre : prefixes = []
  · subst hpre
    refine ⟨?_, ?_, ?_⟩
    · simp [validate_package_prefixes]
    · intro p pp _ _ hne _ _
      exact absurd rfl hne
    · intro p pp _ hne _ _
      exact absurd rfl hne
  · have hlen : ¬ prefixes.length = 0 := by
      intro h
      exact hpre (List.length_eq_zero.mp h)
    refine ⟨?_, ?_, ?_⟩
    · rw [validate_package_prefixes, if_neg hlen, List.append_eq_nil,
        List.flatMap_eq_nil_iff, List.flatMap_eq_nil_iff]
      constructor
      · rintro ⟨hs, hg⟩
        refine Or.inr ⟨?_, ?_, ?_⟩
        · rw [Bool.eq_false_iff]
          intro hc
          have hstar := hs (pystr "*") (List.elem_iff.mp hc)
          rw [if_pos rfl] at hstar
          cases hstar
        · intro p hp
          have h1 := hs p hp
          by_cases hps : p = pystr "*"
          · rw [if_pos hps] at h1
            cases h1
          · rw [if_neg hps] at h1
            exact (validate_pkg_not_matched_eq_nil _ _ _).mp h1
        · intro p hp
          exact (validate_pkg_not_matched_eq_nil _ _ _).mp (hg p hp)
      · rintro (h | ⟨hstar, hsp, hsi⟩)
        · exact absurd h hpre
        constructor
        · intro p hp
          have hps : p ≠ pystr "*" := by
            intro h
            rw [h] at hp
            have h2 : splits.contains (pystr "*") = true := List.elem_iff.mpr hp
            rw [h2] at hstar
            cases hstar
          rw [if_neg hps]
          exact (validate_pkg_not_matched_eq_nil _ _ _).mpr (hsp p hp)
        · intro p hp
          exact (validate_pkg_not_matched_eq_nil _ _ _).mpr (hsi p hp)
    · intro p pp hp hps _ hm hppn
      rw [validate_package_prefixes, if_neg hlen]
      refine List.mem_append_left _ (List.mem_flatMap.mpr ⟨p, hp, ?_⟩)
      rw [if_neg hps, validate_pkg_not_matched_eq _ _ _ _ hm hppn]
      exact List.mem_singleton.mpr rfl
    · intro p pp hp _ hm hppn
      rw [validate_package_prefixes, if_neg hlen]
      refine List.mem_append_right _ (List.mem_flatMap.mpr ⟨p, hp, ?_⟩)
      rw [validate_pkg_not_matched_eq _ _ _ _ hm hppn]
      exact List.mem_singleton.mpr rfl

/-- C3, witness for the amended theorem: the rejected direction at a
concrete input (split package `a/b`, declared prefix `a`). -/
theorem claim_C3_amended_witness :
    (pystr "split package" ++ pystr " " ++ slash_package_to_dot_package (pystr "a/b")
      ++ pystr " is matched by package prefix "
      ++ slash_package_to_dot_package (pystr "a"))
      ∈ validate_package_prefixes [pystr "a/b"] [] [pystr "a"] := by
  exact (claim_C3_amended [pystr "a/b"] [] [pystr "a"]).2.1
    (pystr "a/b") (pystr "a") (by decide) (by decide) (by decide) (by decide)
    (by decide)

end HiddenApi

namespace HiddenApi

/-! ## Claim theorems: grammar errors of signature decomposition (C4) -/

/-- C4, counterexample: on the input `La/b;->c()V` — whose final path segment
`b` is entirely lower case but which *does* carry a member suffix —
`signature_to_elements` raises the lower-case grammar error even though the
input falls under none of the claim's three cases (its third case requires
the absence of a member suffix). -/
theorem claim_C4_counterexample :
    signature_to_elements (pystr "La/b;->c()V")
      = .error (.lowerCaseLast (pystr "La/b;->c()V") (pystr "b"))
    ∧ ¬ claimedGrammarErrorCases (pystr "La/b;->c()V") := by
  decide

/-- C4, amended: `signature_to_elements` raises a grammar error exactly in
these cases, each yielding a distinct error (a distinct `raise` site whose
message carries the offending text): (1) the final path segment contains `*`
but is not exactly `*` or `**`; (2) a wildcard final segment combined with a
member suffix; (3) a final segment with no wildcard that is entirely lower
case — regardless, in case (3), of whether a member suffix is present. -/
theorem claim_C4_amended :
    ∀ s : PyStr,
      (pyContainsChar (lastSegment s) '*' = true → lastSegment s ≠ pystr "*" →
        lastSegment s ≠ pystr "**" →
        signature_to_elements s = .error (.invalidWildcard s (lastSegment s)))
      ∧ ((lastSegment s = pystr "*" ∨ lastSegment s = pystr "**") →
        memberParts s ≠ [] →
        signature_to_elements s = .error (.wildcardMember s (lastSegment s)
          ((memberParts s).headD [])))
      ∧ (pyContainsChar (lastSegment s) '*' = false →
        pyIsLower (lastSegment s) = true →
        signature_to_elements s = .error (.lowerCaseLast s (lastSegment s)))
      ∧ (∀ e, signature_to_elements s = .error e →
          (pyContainsChar (lastSegment s) '*' = true ∧ lastSegment s ≠ pystr "*"
            ∧ lastSegment s ≠ pystr "**")
          ∨ ((lastSegment s = pystr "*" ∨ lastSegment s = pystr "**")
            ∧ memberParts s ≠ [])
          ∨ (pyContainsChar (lastSegment s) '*' = false
            ∧ pyIsLower (lastSegment s) = true))
      ∧ (∀ e, signature_to_elements s = .error e →
          ∃ pre post, TrieErr.message e = pre ++ s ++ post) := by
  intro s
  refine ⟨?_, ?_, ?_, ?_, ?_⟩
  · intro h1 h2 h3
    rw [signature_to_elements, if_pos h1, if_pos ⟨h2, h3⟩]
  · intro hl hm
    have h1 : pyContainsChar (lastSegment s) '*' = true := by
      rcases hl with h | h <;> rw [h] <;> decide
    have h2 : ¬ (lastSegment s ≠ pystr "*" ∧ lastSegment s ≠ pystr "**") := by
      rcases hl with h | h
      · exact fun hc => hc.1 h
      · exact fun hc => hc.2 h
    rw [signature_to_elements, if_pos h1, if_neg h2, if_pos hm]
  · intro h1 h2
    rw [signature_to_elements, if_neg (by rw [h1]; exact Bool.false_ne_true),
      if_pos h2]
  · intro e he
    by_cases h1 : pyContainsChar (lastSegment s) '*' = true
    · by_cases h2 : lastSegment s ≠ pystr "*" ∧ lastSegment s ≠ pystr "**"
      · exact Or.inl ⟨h1, h2⟩
      · have hl : lastSegment s = pystr "*" ∨ lastSegment s = pystr "**" := by
          by_cases ha : lastSegment s = pystr "*"
          · exact Or.inl ha
          · by_cases hb : lastSegment s = pystr "**"
            · exact Or.inr hb
            · exact absurd ⟨ha, hb⟩ h2
        by_cases hm : memberParts s ≠ []
        · exact Or.inr (Or.inl ⟨hl, hm⟩)
        · rw [signature_to_elements, if_pos h1, if_neg h2, if_neg hm] at he
          cases he
    · by_cases h2 : pyIsLower (lastSegment s) = true
      · exact Or.inr (Or.inr ⟨Bool.eq_false_iff.mpr h1, h2⟩)
      · rw [signature_to_elements, if_neg h1, if_neg h2] at he
        cases he
  · intro e he
    by_cases h1 : pyContainsChar (lastSegment s) '*' = true
    · by_cases h2 : lastSegment s ≠ pystr "*" ∧ lastSegment s ≠ pystr "**"
      · rw [signature_to_elements, if_pos h1, if_pos h2] at he
        cases he
        exact ⟨pystr "Invalid signature '",
          pystr "': invalid wildcard '" ++ (lastSegment s ++ pystr "'"),
          by simp only [TrieErr.message, List.append_assoc]⟩
      · by_cases hm : memberParts s ≠ []
        · rw [signature_to_elements, if_pos h1, if_neg h2, if_pos hm] at he
          cases he
          exact ⟨pystr "Invalid signature '",
            pystr "': contains wildcard '" ++ (lastSegment s
              ++ (pystr "' and member signature '"
                ++ ((memberParts s).headD [] ++ pystr "'"))),
            by simp only [TrieErr.message, List.append_assoc]⟩
        · rw [signature_to_elements, if_pos h1, if_neg h2, if_neg hm] at he
          cases he
    · by_cases h2 : pyIsLower (lastSegment s) = true
      · rw [signature_to_elements, if_neg h1, if_pos h2] at he
        cases he
        exact ⟨pystr "Invalid signature '",
          pystr "': last element '" ++ (lastSegment s
            ++ pystr "' is lower case but should be an upper case class name or wildcard"),
          by simp only [TrieErr.message, List.append_assoc]⟩
      · rw [signature_to_elements, if_neg h1, if_neg h2] at he
        cases he

/-- C4, witness: the amended characterization applied at the concrete inputs
`La/C*` (invalid wildcard), `La/*;->m()V` (wildcard plus member) and
`La/b` (lower-case final segment, no member). -/
theorem claim_C4_amended_witness :
    signature_to_elements (pystr "La/C*")
      = .error (.invalidWildcard (pystr "La/C*") (pystr "C*"))
    ∧ signature_to_elements (pystr "La/*;->m()V")
      = .error (.wildcardMember (pystr "La/*;->m()V") (pystr "*") (pystr "m()V"))
    ∧ signature_to_elements (pystr "La/b")
      = .error (.lowerCaseLast (pystr "La/b") (pystr "b")) := by
  refine ⟨?_, ?_, ?_⟩
  · exact (claim_C4_amended (pystr "La/C*")).1 (by decide) (by decide) (by decide)
  · exact (claim_C4_amended (pystr "La/*;->m()V")).2.1 (Or.inl (by decide)) (by decide)
  · exact (claim_C4_amended (pystr "La/b")).2.2.1 (by decide) (by decide)

end HiddenApi

namespace HiddenApi

/-! ## Child-dict lemmas -/

theorem hasChildKey_append_self {α : Type} (ns : List (Element × Node α))
    (e : Element) (x : Node α) : hasChildKey (ns ++ [(e, x)]) e = true := by
  induction ns with
  | nil => simp [hasChildKey]
  | cons kv rest ih =>
    simp only [hasChildKey, List.cons_append, List.any_cons] at ih ⊢
    rw [ih]
    exact Bool.or_true _

theorem findChild_setChild_some {α : Type} {ns : List (Element × Node α)}
    {e : Element} {c : Node α} (x : Node α) (h : findChild ns e = some c) :
    findChild (setChild ns e x) e = some x := by
  induction ns with
  | nil => exact absurd h (by simp [findChild])
  | cons kv rest ih =>
    obtain ⟨k, m⟩ := kv
    by_cases hk : k = e
    · rw [setChild, if_pos hk, findChild, if_pos hk]
    · rw [findChild, if_neg hk] at h
      rw [setChild, if_neg hk, findChild, if_neg hk]
      exact ih h

theorem setChild_idem {α : Type} (ns : List (Element × Node α)) (e : Element)
    (x : Node α) : setChild (setChild ns e x) e x = setChild ns e x := by
  induction ns with
  | nil => rfl
  | cons kv rest ih =>
    obtain ⟨k, m⟩ := kv
    by_cases hk : k = e
    · rw [setChild, if_pos hk, setChild, if_pos hk]
    · rw [setChild, if_neg hk, setChild, if_neg hk, ih]

theorem findChild_append_none {α : Type} {ns : List (Element × Node α)}
    {e : Element} (l : List (Element × Node α)) (h : findChild ns e = none) :
    findChild (ns ++ l) e = findChild l e := by
  induction ns with
  | nil => rfl
  | cons kv rest ih =>
    obtain ⟨k, m⟩ := kv
    by_cases hk : k = e
    · rw [findChild, if_pos hk] at h
      cases h
    · rw [findChild, if_neg hk] at h
      rw [List.cons_append, findChild, if_neg hk]
      exact ih h

theorem setChild_append_none {α : Type} {ns : List (Element × Node α)}
    {e : Element} (x y : Node α) (h : findChild ns e = none) :
    setChild (ns ++ [(e, x)]) e y = ns ++ [(e, y)] := by
  induction ns with
  | nil => simp [setChild]
  | cons kv rest ih =>
    obtain ⟨k, m⟩ := kv
    by_cases hk : k = e
    · rw [findChild, if_pos hk] at h
      cases h
    · rw [findChild, if_neg hk] at h
      rw [List.cons_append, setChild, if_neg hk, ih h]
      exact (List.cons_append _ _ _).symm


/-! ## Step equations for `addWalk` -/

theorem addWalk_found {α : Type} (sig : PyStr) (v : α) (b : Bool)
    (allE : List Element) (e e2 : Element) (rest2 : List Element)
    (ty : String) (sel : PyStr) {ns : List (Element × Node α)} {child : Node α}
    (idx : Nat) (hf : findChild ns e = some child) :
    addWalk sig v b allE (e :: e2 :: rest2) (.interior ty sel ns) idx
      = (.interior ty sel
          (setChild ns e (addWalk sig v b allE (e2 :: rest2) child (idx + 1)).1),
        (addWalk sig v b allE (e2 :: rest2) child (idx + 1)).2) := by
  rw [addWalk, hf]

theorem addWalk_notFound {α : Type} (sig : PyStr) (v : α) (b : Bool)
    (allE : List Element) (e e2 : Element) (rest2 : List Element)
    (ty : String) (sel : PyStr) {ns : List (Element × Node α)}
    (idx : Nat) (hf : findChild ns e = none) (hb : ¬ (b = true ∧ idx = 0)) :
    addWalk sig v b allE (e :: e2 :: rest2) (.interior ty sel ns) idx
      = (.interior ty sel (ns ++ [(e,
          (addWalk sig v b allE (e2 :: rest2)
            (.interior (elementType e) (elements_to_selector (allE.take (idx + 1))) [])
            (idx + 1)).1)]),
        (addWalk sig v b allE (e2 :: rest2)
          (.interior (elementType e) (elements_to_selector (allE.take (idx + 1))) [])
          (idx + 1)).2) := by
  simp only [addWalk, hf]
  rw [if_neg hb]

theorem addWalk_skip {α : Type} (sig : PyStr) (v : α) (b : Bool)
    (allE : List Element) (e e2 : Element) (rest2 : List Element)
    (ty : String) (sel : PyStr) {ns : List (Element × Node α)}
    (idx : Nat) (hf : findChild ns e = none) (hb : b = true ∧ idx = 0) :
    addWalk sig v b allE (e :: e2 :: rest2) (.interior ty sel ns) idx
      = (.interior ty sel ns, none) := by
  simp only [addWalk, hf]
  rw [if_pos hb]

theorem addWalk_last_notMember {α : Type} (sig : PyStr) (v : α) (b : Bool)
    (allE : List Element) (last : Element) (n : Node α) (idx : Nat)
    (hty : elementType last ≠ "member") :
    addWalk sig v b allE [last] n idx = (n, some (.notAMember sig)) := by
  cases n with
  | leaf lty lsel lval => simp only [addWalk, if_pos hty]
  | interior ty sel ns => simp only [addWalk, if_pos hty]

theorem addWalk_last_dup {α : Type} (sig : PyStr) (v : α) (b : Bool)
    (allE : List Element) (last : Element) (ty : String) (sel : PyStr)
    {ns : List (Element × Node α)} (idx : Nat)
    (hty : ¬ elementType last ≠ "member") (hk : hasChildKey ns last = true) :
    addWalk sig v b allE [last] (.interior ty sel ns) idx
      = (.interior ty sel ns, some (.duplicateSignature sig)) := by
  rw [addWalk, if_neg hty, if_pos hk]

theorem addWalk_last_insert {α : Type} (sig : PyStr) (v : α) (b : Bool)
    (allE : List Element) (last : Element) (ty : String) (sel : PyStr)
    {ns : List (Element × Node α)} (idx : Nat)
    (hty : ¬ elementType last ≠ "member") (hk : ¬ hasChildKey ns last = true) :
    addWalk sig v b allE [last] (.interior ty sel ns) idx
      = (.interior ty sel (ns ++ [(last, .leaf (elementType last) sig v)]), none) := by
  rw [addWalk, if_neg hty, if_neg hk]

theorem addWalk_leaf {α : Type} (sig : PyStr) (v : α) (b : Bool)
    (allE : List Element) (e e2 : Element) (rest2 : List Element)
    (lty : String) (lsel : PyStr) (lval : α) (idx : Nat) :
    addWalk sig v b allE (e :: e2 :: rest2) (.leaf lty lsel lval) idx
      = (.leaf lty lsel lval, some .attributeError) := by
  rw [addWalk]

theorem addWalk_last_leaf {α : Type} (sig : PyStr) (v : α) (b : Bool)
    (allE : List Element) (last : Element) (lty : String) (lsel : PyStr)
    (lval : α) (idx : Nat) (hty : ¬ elementType last ≠ "member") :
    addWalk sig v b allE [last] (.leaf lty lsel lval) idx
      = (.leaf lty lsel lval, some .attributeError) := by
  rw [addWalk, if_neg hty]

/-! ## `add` lemmas: duplicates and non-atomicity -/

/-- Re-inserting the exact element path of a just-successful `addWalk` hits
the `Duplicate signature` error and returns the trie unchanged. -/
theorem addWalk_success_readd {α : Type} (sig : PyStr) (v w : α)
    (allE : List Element) :
    ∀ (es : List Element) (n : Node α) (idx : Nat), es ≠ [] →
      (addWalk sig v false allE es n idx).2 = none →
      addWalk sig w false allE es (addWalk sig v false allE es n idx).1 idx
        = ((addWalk sig v false allE es n idx).1,
          some (.duplicateSignature sig)) := by
  intro es
  induction es with
  | nil => intro n idx hne _; exact absurd rfl hne
  | cons e rest ih =>
    intro n idx _ hsucc
    cases rest with
    | nil =>
      by_cases hty : elementType e ≠ "member"
      · rw [addWalk_last_notMember sig v false allE e n idx hty] at hsucc
        cases hsucc
      · cases n with
        | leaf ty sel val =>
          rw [addWalk_last_leaf sig v false allE e ty sel val idx hty] at hsucc
          cases hsucc
        | interior ty sel ns =>
          by_cases hk : hasChildKey ns e = true
          · rw [addWalk_last_dup sig v false allE e ty sel idx hty hk] at hsucc
            cases hsucc
          · rw [addWalk_last_insert sig v false allE e ty sel idx hty hk]
            rw [addWalk_last_dup sig w false allE e ty sel idx hty
              (hasChildKey_append_self ns e (Node.leaf (elementType e) sig v))]
    | cons e2 rest2 =>
      cases n with
      | leaf ty sel val =>
        rw [addWalk_leaf sig v false allE e e2 rest2 ty sel val idx] at hsucc
        cases hsucc
      | interior ty sel ns =>
        rcases hf : findChild ns e with _ | child
        · rw [addWalk_notFound sig v false allE e e2 rest2 ty sel idx hf (by simp)] at hsucc ⊢
          dsimp only at hsucc ⊢
          have hrec := ih (Node.interior (elementType e)
            (elements_to_selector (allE.take (idx + 1))) []) (idx + 1)
            (by simp) hsucc
          have hf2 : findChild (ns ++ [(e, (addWalk sig v false allE (e2 :: rest2)
              (Node.interior (elementType e)
                (elements_to_selector (allE.take (idx + 1))) []) (idx + 1)).1)]) e
              = some ((addWalk sig v false allE (e2 :: rest2)
                (Node.interior (elementType e)
                  (elements_to_selector (allE.take (idx + 1))) []) (idx + 1)).1) := by
            rw [findChild_append_none _ hf, findChild, if_pos rfl]
          rw [addWalk_found sig w false allE e e2 rest2 ty sel idx hf2, hrec]
          dsimp only
          rw [setChild_append_none _ _ hf]
        · rw [addWalk_found sig v false allE e e2 rest2 ty sel idx hf] at hsucc ⊢
          dsimp only at hsucc ⊢
          have hrec := ih child (idx + 1) (by simp) hsucc
          rw [addWalk_found sig w false allE e e2 rest2 ty sel idx
            (findChild_setChild_some _ hf), hrec]
          dsimp only
          rw [setChild_idem]

/-- The exception raised by `addWalk` does not depend on the inserted
value. -/
theorem addWalk_err_value_indep {α : Type} (sig : PyStr) (v w : α)
    (allE : List Element) :
    ∀ (es : List Element) (n : Node α) (idx : Nat),
      (addWalk sig v false allE es n idx).2
        = (addWalk sig w false allE es n idx).2 := by
  intro es
  induction es with
  | nil => intro n idx; rfl
  | cons e rest ih =>
    intro n idx
    cases rest with
    | nil =>
      by_cases hty : elementType e ≠ "member"
      · rw [addWalk_last_notMember sig v false allE e n idx hty,
          addWalk_last_notMember sig w false allE e n idx hty]
      · cases n with
        | leaf ty sel val =>
          rw [addWalk_last_leaf sig v false allE e ty sel val idx hty,
            addWalk_last_leaf sig w false allE e ty sel val idx hty]
        | interior ty sel ns =>
          by_cases hk : hasChildKey ns e = true
          · rw [addWalk_last_dup sig v false allE e ty sel idx hty hk,
              addWalk_last_dup sig w false allE e ty sel idx hty hk]
          · rw [addWalk_last_insert sig v false allE e ty sel idx hty hk,
              addWalk_last_insert sig w false allE e ty sel idx hty hk]
    | cons e2 rest2 =>
      cases n with
      | leaf ty sel val => rfl
      | interior ty sel ns =>
        rcases hf : findChild ns e with _ | child
        · rw [addWalk_notFound sig v false allE e e2 rest2 ty sel idx hf (by simp),
            addWalk_notFound sig w false allE e e2 rest2 ty sel idx hf (by simp)]
          exact ih _ (idx + 1)
        · rw [addWalk_found sig v false allE e e2 rest2 ty sel idx hf,
            addWalk_found sig w false allE e e2 rest2 ty sel idx hf]
          exact ih child (idx + 1)

end HiddenApi

namespace HiddenApi

theorem pySplitGo_ne_nil (sep : PyStr) (fuel : Nat) (s : PyStr) :
    pySplitGo sep fuel s ≠ [] := by
  cases s with
  | nil => cases fuel <;> simp [pySplitGo]
  | cons c rest =>
    cases fuel with
    | zero => simp [pySplitGo]
    | succ n =>
      rw [pySplitGo]
      by_cases hp : sep.isPrefixOf (c :: rest) = true
      · rw [if_pos hp]
        simp
      · rw [if_neg hp]
        cases pySplitGo sep n (rest.drop (sep.length - 1)) <;>
          cases pySplitGo sep n rest <;> simp

theorem pySplit_ne_nil (sep s : PyStr) : pySplit sep s ≠ [] := by
  cases sep with
  | nil => simp [pySplit]
  | cons a as => exact pySplitGo_ne_nil (a :: as) s.length s

theorem signature_to_elements_ok_ne_nil {s : PyStr} {es : List Element}
    (h : signature_to_elements s = .ok es) : es ≠ [] := by
  intro hnil
  subst hnil
  rw [signature_to_elements] at h
  by_cases h1 : pyContainsChar (lastSegment s) '*' = true
  · rw [if_pos h1] at h
    by_cases h2 : lastSegment s ≠ pystr "*" ∧ lastSegment s ≠ pystr "**"
    · rw [if_pos h2] at h
      cases h
    · rw [if_neg h2] at h
      by_cases h3 : memberParts s ≠ []
      · rw [if_pos h3] at h
        cases h
      · rw [if_neg h3] at h
        rw [Except.ok.injEq] at h
        exact absurd h.symm (by simp)
  · rw [if_neg h1] at h
    by_cases h2 : pyIsLower (lastSegment s) = true
    · rw [if_pos h2] at h
      cases h
    · rw [if_neg h2] at h
      rw [Except.ok.injEq] at h
      have h3 := (List.append_eq_nil.mp
        (List.append_eq_nil.mp h).1).2
      rw [List.map_eq_nil_iff] at h3
      exact pySplit_ne_nil _ _ h3

/-! ## Claim theorems: duplicate insertion (C9) -/

/-- C9 (confirmed): inserting the same full member signature twice into one
trie raises `Duplicate signature` on the second insertion (and leaves the
trie unchanged, making the second conjunct a strengthening), while inserting
that same signature into a second, fresh trie succeeds without error. -/
theorem claim_C9 {α : Type} (s : PyStr) (v w : α)
    (h : (Node.add (signature_trie (α := α)) s v).2 = none) :
    (Node.add (Node.add (signature_trie (α := α)) s v).1 s w).2
      = some (.duplicateSignature s)
    ∧ (Node.add (Node.add (signature_trie (α := α)) s v).1 s w).1
      = (Node.add (signature_trie (α := α)) s v).1
    ∧ (Node.add (signature_trie (α := α)) s w).2 = none := by
  rcases hd : signature_to_elements s with e | elements
  · simp only [Node.add, hd] at h
    cases h
  · have hne := signature_to_elements_ok_ne_nil hd
    simp only [Node.add, hd] at h ⊢
    have h1 := addWalk_success_readd s v w elements elements
      (signature_trie (α := α)) 0 hne h
    refine ⟨?_, ?_, ?_⟩
    · rw [h1]
    · rw [h1]
    · rw [← addWalk_err_value_indep s v w elements elements
        (signature_trie (α := α)) 0]
      exact h

/-- C9, witness at a concrete signature. -/
theorem claim_C9_witness :
    (Node.add (Node.add (signature_trie (α := Nat)) (pystr "La/B;->m()V") 0).1
        (pystr "La/B;->m()V") 1).2
      = some (.duplicateSignature (pystr "La/B;->m()V"))
    ∧ (Node.add (Node.add (signature_trie (α := Nat)) (pystr "La/B;->m()V") 0).1
        (pystr "La/B;->m()V") 1).1
      = (Node.add (signature_trie (α := Nat)) (pystr "La/B;->m()V") 0).1
    ∧ (Node.add (signature_trie (α := Nat)) (pystr "La/B;->m()V") 1).2 = none :=
  claim_C9 (pystr "La/B;->m()V") 0 1 (by decide)

end HiddenApi

namespace HiddenApi

/-! ## Claim theorems: non-atomicity of `add` (C10) -/

/-- Walking a wholly fresh chain with a non-member final element: the
`notAMember` exception is raised only after the interior nodes for the
leading elements have been created, and those nodes are reachable in the
returned trie. -/
theorem addWalk_fresh_notMember {α : Type} (sig : PyStr) (v : α)
    (allE : List Element) :
    ∀ (rest : List Element) (last : Element) (ty : String) (sel : PyStr)
      (idx : Nat), elementType last ≠ "member" →
      (addWalk sig v false allE (rest ++ [last])
          (Node.interior ty sel []) idx).2 = some (.notAMember sig)
      ∧ hasNodePath (addWalk sig v false allE (rest ++ [last])
          (Node.interior ty sel []) idx).1 rest = true := by
  intro rest
  induction rest with
  | nil =>
    intro last ty sel idx hty
    rw [List.nil_append,
      addWalk_last_notMember sig v false allE last _ idx hty]
    exact ⟨rfl, rfl⟩
  | cons e rest' ih =>
    intro last ty sel idx hty
    rcases hsplit : rest' ++ [last] with _ | ⟨e2, r2⟩
    · exact absurd hsplit (by simp)
    · rw [List.cons_append, hsplit,
        addWalk_notFound sig v false allE e e2 r2 ty sel idx (by rw [findChild]) (by simp)]
      have hrec := ih last (elementType e)
        (elements_to_selector (allE.take (idx + 1))) (idx + 1) hty
      rw [hsplit] at hrec
      refine ⟨hrec.1, ?_⟩
      rw [List.nil_append, hasNodePath]
      rw [show findChild [(e, (addWalk sig v false allE (e2 :: r2)
          (Node.interior (elementType e)
            (elements_to_selector (allE.take (idx + 1))) []) (idx + 1)).1)] e
        = some ((addWalk sig v false allE (e2 :: r2)
          (Node.interior (elementType e)
            (elements_to_selector (allE.take (idx + 1))) []) (idx + 1)).1)
        from by rw [findChild, if_pos rfl]]
      exact hrec.2

/-- `addWalk` on an interior node returns an interior node with the same
type and selector. -/
theorem addWalk_fst_interior {α : Type} (sig : PyStr) (v : α) (b : Bool)
    (allE : List Element) :
    ∀ (es : List Element) (ty : String) (sel : PyStr)
      (ns : List (Element × Node α)) (idx : Nat),
      ∃ ns', (addWalk sig v b allE es (.interior ty sel ns) idx).1
        = .interior ty sel ns' := by
  intro es
  cases es with
  | nil => exact fun ty sel ns idx => ⟨ns, rfl⟩
  | cons e rest =>
    cases rest with
    | nil =>
      intro ty sel ns idx
      by_cases hty : elementType e ≠ "member"
      · rw [addWalk_last_notMember sig v b allE e _ idx hty]
        exact ⟨ns, rfl⟩
      · by_cases hk : hasChildKey ns e = true
        · rw [addWalk_last_dup sig v b allE e ty sel idx hty hk]
          exact ⟨ns, rfl⟩
        · rw [addWalk_last_insert sig v b allE e ty sel idx hty hk]
          exact ⟨ns ++ [(e, .leaf (elementType e) sig v)], rfl⟩
    | cons e2 rest2 =>
      intro ty sel ns idx
      rcases hf : findChild ns e with _ | child
      · by_cases hb : b = true ∧ idx = 0
        · rw [addWalk_skip sig v b allE e e2 rest2 ty sel idx hf hb]
          exact ⟨ns, rfl⟩
        · rw [addWalk_notFound sig v b allE e e2 rest2 ty sel idx hf hb]
          exact ⟨_, rfl⟩
      · rw [addWalk_found sig v b allE e e2 rest2 ty sel idx hf]
        exact ⟨_, rfl⟩

/-- Every trie the source can observe is an interior root node. -/
theorem Built_shape {α : Type} {t : Node α} (h : Built t) :
    ∃ ns, t = .interior "root" [] ns := by
  induction h with
  | empty => exact ⟨[], rfl⟩
  | step t s v b ht ih =>
    obtain ⟨ns, hns⟩ := ih
    subst hns
    rcases hd : signature_to_elements s with e | es
    · simp only [Node.add, hd]
      exact ⟨ns, rfl⟩
    · simp only [Node.add, hd]
      exact addWalk_fst_interior s v b es es "root" [] ns 0

end HiddenApi

namespace HiddenApi

/-- C10 (confirmed): `add` is not atomic on the not-a-member structural
error.  First conjunct: on any reachable trie, adding a grammar-valid
multi-element signature whose last element is not a member and whose first
element is not yet in the trie raises `notAMember` *after* creating the
interior nodes for the leading elements — they remain reachable in the
post-call trie, which therefore differs from the original.  Second
conjunct: an `add` that fails with the duplicate-signature error leaves the
trie exactly unchanged. -/
theorem claim_C10 {α : Type} :
    (∀ (t : Node α) (s : PyStr) (v : α) (init : List Element) (last : Element),
      Built t →
      signature_to_elements s = .ok (init ++ [last]) →
      init ≠ [] →
      elementType last ≠ "member" →
      hasNodePath t [init.headD ("", [])] = false →
      (Node.add t s v).2 = some (.notAMember s)
      ∧ hasNodePath (Node.add t s v).1 init = true
      ∧ (Node.add t s v).1 ≠ t)
    ∧ (∀ (s : PyStr) (v w : α),
      (Node.add (signature_trie (α := α)) s v).2 = none →
      (Node.add (Node.add (signature_trie (α := α)) s v).1 s w).1
        = (Node.add (signature_trie (α := α)) s v).1) := by
  constructor
  · intro t s v init last hb hd hinit hty hmiss
    obtain ⟨ns, hns⟩ := Built_shape hb
    subst hns
    rcases init with _ | ⟨e0, init'⟩
    · exact absurd rfl hinit
    · have hf : findChild ns e0 = none := by
        rcases hfc : findChild ns e0 with _ | c
        · rfl
        · rw [show (e0 :: init').headD ("", []) = e0 from rfl] at hmiss
          rw [hasNodePath, hfc] at hmiss
          dsimp only at hmiss
          rw [hasNodePath] at hmiss
          cases hmiss
      have hmiss2 : hasNodePath (Node.interior "root" [] ns) (e0 :: init')
          = false := by
        rw [hasNodePath, hf]
      simp only [Node.add, hd]
      rcases hsplit : init' ++ [last] with _ | ⟨e2, r2⟩
      · exact absurd hsplit (by simp)
      · rw [List.cons_append, hsplit,
          addWalk_notFound s v false (e0 :: e2 :: r2) e0 e2 r2 "root" [] 0 hf
            (by simp)]
        have hrec := addWalk_fresh_notMember s v (e0 :: e2 :: r2) init' last
          (elementType e0) (elements_to_selector ((e0 :: e2 :: r2).take (0 + 1)))
          (0 + 1) hty
        rw [hsplit] at hrec
        have hf2 : findChild (ns ++ [(e0, (addWalk s v false (e0 :: e2 :: r2)
            (e2 :: r2) (Node.interior (elementType e0)
              (elements_to_selector ((e0 :: e2 :: r2).take (0 + 1)))
              []) (0 + 1)).1)]) e0
            = some ((addWalk s v false (e0 :: e2 :: r2) (e2 :: r2)
              (Node.interior (elementType e0)
                (elements_to_selector ((e0 :: e2 :: r2).take (0 + 1)))
                []) (0 + 1)).1) := by
          rw [findChild_append_none _ hf, findChild, if_pos rfl]
        have h2 : hasNodePath (Node.interior "root"
            [] (ns ++ [(e0, (addWalk s v false (e0 :: e2 :: r2) (e2 :: r2)
              (Node.interior (elementType e0)
                (elements_to_selector ((e0 :: e2 :: r2).take (0 + 1)))
                []) (0 + 1)).1)])) (e0 :: init') = true := by
          rw [hasNodePath, hf2]
          dsimp only
          exact hrec.2
        refine ⟨hrec.1, ?_, ?_⟩
        · exact h2
        · intro heq
          dsimp only at heq
          rw [heq] at h2
          exact absurd h2 (by rw [hmiss2]; exact Bool.false_ne_true)
  · intro s v w h
    rcases hd : signature_to_elements s with e | elements
    · simp only [Node.add, hd] at h
      cases h
    · have hne := signature_to_elements_ok_ne_nil hd
      simp only [Node.add, hd] at h ⊢
      rw [addWalk_success_readd s v w elements elements
        (signature_trie (α := α)) 0 hne h]

/-- C10, witness: both conjuncts at concrete inputs — the wildcard pattern
`La/b/*` (not a member) added to an empty trie creates and keeps the
interior nodes for `a` and `a/b`, and a duplicated `La/B;->m()V` leaves the
trie unchanged. -/
theorem claim_C10_witness :
    ((Node.add (signature_trie (α := Nat)) (pystr "La/b/*") 0).2
      = some (.notAMember (pystr "La/b/*"))
    ∧ hasNodePath (Node.add (signature_trie (α := Nat)) (pystr "La/b/*") 0).1
        [("package", pystr "a"), ("package", pystr "b")] = true
    ∧ (Node.add (signature_trie (α := Nat)) (pystr "La/b/*") 0).1
        ≠ signature_trie)
    ∧ (Node.add (Node.add (signature_trie (α := Nat)) (pystr "La/B;->m()V") 0).1
        (pystr "La/B;->m()V") 1).1
      = (Node.add (signature_trie (α := Nat)) (pystr "La/B;->m()V") 0).1 :=
  ⟨claim_C10.1 signature_trie (pystr "La/b/*") 0
      [("package", pystr "a"), ("package", pystr "b")] ("wildcard", pystr "*")
      Built.empty (by decide) (by decide) (by decide) (by decide),
    claim_C10.2 (pystr "La/B;->m()V") 0 1 (by decide)⟩

end HiddenApi

namespace HiddenApi

/-! ## Splitting lemmas -/

/-- A string in which the separator does not occur splits into itself. -/
theorem pySplit_eq_single {sep : PyStr} (hsep : sep ≠ []) :
    ∀ {s : PyStr}, occursIn sep s = false → pySplit sep s = [s] := by
  intro s
  induction s with
  | nil =>
    intro _
    rw [pySplit_nil hsep]
  | cons c rest ih =>
    intro h
    rw [occursIn, Bool.or_eq_false_iff] at h
    rw [pySplit_cons hsep, if_neg (by rw [h.1]; exact Bool.false_ne_true),
      ih h.2]

/-- If the first character of the separator does not occur in `s`, the
separator does not occur in `s`. -/
theorem occursIn_of_not_contains {c : Char} {sep rest : PyStr}
    (hsep : sep = c :: rest) {s : PyStr} (h : s.contains c = false) :
    occursIn sep s = false := by
  subst hsep
  induction s with
  | nil => rfl
  | cons d ds ih =>
    rw [List.contains_cons, Bool.or_eq_false_iff] at h
    rw [occursIn, Bool.or_eq_false_iff]
    refine ⟨?_, ih h.2⟩
    rw [List.isPrefixOf_cons₂]
    have : (c == d) = false := by
      rw [beq_eq_false_iff_ne]
      intro hc
      rw [hc] at h
      simp at h
    rw [this]
    rfl

/-- Splitting on a single character distributes over an occurrence of that
character. -/
theorem pySplit_char_append (ch : Char) (a b : PyStr) :
    pySplit [ch] (a ++ ch :: b) = pySplit [ch] a ++ pySplit [ch] b := by
  induction a with
  | nil =>
    rw [List.nil_append, pySplit_cons (by simp),
      if_pos (by rw [List.isPrefixOf_cons₂]; simp [List.isPrefixOf])]
    rw [pySplit_nil (by simp)]
    rfl
  | cons c a' ih =>
    by_cases hc : ch = c
    · subst hc
      rw [List.cons_append, pySplit_cons (by simp)]
      rw [if_pos (by rw [List.isPrefixOf_cons₂]; simp [List.isPrefixOf])]
      rw [@pySplit_cons [ch] (by simp) _ _,
        if_pos (by rw [List.isPrefixOf_cons₂]; simp [List.isPrefixOf])]
      rw [List.cons_append]
      show [] :: pySplit [ch] (a' ++ ch :: b)
        = ([] :: pySplit [ch] ((ch :: a').drop 1)) ++ pySplit [ch] b
      rw [ih]
      rfl
    · rw [List.cons_append, pySplit_cons (by simp)]
      have hpre : [ch].isPrefixOf (c :: (a' ++ ch :: b)) = false := by
        rw [List.isPrefixOf_cons₂]
        have : (ch == c) = false := by rw [beq_eq_false_iff_ne]; exact hc
        rw [this]
        rfl
      rw [if_neg (by rw [hpre]; exact Bool.false_ne_true), ih]
      rw [@pySplit_cons [ch] (by simp) _ _]
      have hpre2 : [ch].isPrefixOf (c :: a') = false := by
        rw [List.isPrefixOf_cons₂]
        have : (ch == c) = false := by rw [beq_eq_false_iff_ne]; exact hc
        rw [this]
        rfl
      rw [if_neg (by rw [hpre2]; exact Bool.false_ne_true)]
      rcases hq : pySplit [ch] a' with _ | ⟨pa, pas⟩
      · exact absurd hq (pySplit_ne_nil _ _)
      · rw [List.cons_append]
        rfl

end HiddenApi

namespace HiddenApi

/-! ## Leaf-path lemmas -/

mutual

theorem leafPaths_map_snd {α : Type} :
    ∀ (n : Node α), (leafPaths n).map Prod.snd = allValues n
  | .leaf _ _ v => rfl
  | .interior _ _ ns => by
    rw [leafPaths, allValues]
    exact leafPathsL_map_snd ns

theorem leafPathsL_map_snd {α : Type} :
    ∀ (ns : List (Element × Node α)),
      (leafPathsL ns).map Prod.snd = allValuesL ns
  | [] => rfl
  | (k, c) :: rest => by
    rw [leafPathsL, allValuesL, List.map_append, leafPathsL_map_snd rest,
      List.map_map]
    rw [show (Prod.snd ∘ fun p : List Element × α =>
        ((k :: p.1, p.2) : List Element × α)) = Prod.snd from rfl]
    rw [leafPaths_map_snd c]

end

theorem pathMatches_nil {sel : Element → Bool} (p : List Element) :
    pathMatches [] sel p = (match p with | [] => true | k :: _ => sel k) := by
  cases p <;> simp [pathMatches, List.isPrefixOf]

theorem pathMatches_cons_same {e : Element} {es : List Element}
    {sel : Element → Bool} (p : List Element) :
    pathMatches (e :: es) sel (e :: p) = pathMatches es sel p := by
  rw [pathMatches, pathMatches, List.isPrefixOf_cons₂]
  simp only [List.length_cons, List.drop_succ_cons, beq_self_eq_true,
    Bool.true_and]

theorem pathMatches_cons_ne {e k : Element} {es : List Element}
    {sel : Element → Bool} (hk : k ≠ e) (p : List Element) :
    pathMatches (e :: es) sel (k :: p) = false := by
  rw [pathMatches, List.isPrefixOf_cons₂]
  have : (e == k) = false := by
    rw [beq_eq_false_iff_ne]
    exact fun h => hk h.symm
  rw [this]
  rfl

theorem pathMatches_nil_path {e : Element} {es : List Element}
    {sel : Element → Bool} : pathMatches (e :: es) sel [] = false := rfl

/-- `Node.values` with a selector collects exactly the leaves whose path's
first step satisfies the selector. -/
theorem selValues_eq_filter {α : Type} (sel : Element → Bool) :
    ∀ (ns : List (Element × Node α)),
      selValues sel ns = ((leafPathsL ns).filter
        (fun pr => pathMatches [] sel pr.1)).map Prod.snd := by
  intro ns
  induction ns with
  | nil => rfl
  | cons kc rest ih =>
    obtain ⟨k, c⟩ := kc
    rw [selValues, leafPathsL, List.filter_append, List.map_append, ← ih]
    congr 1
    rw [List.filter_map]
    rw [show ((fun pr : List Element × α => pathMatches [] sel pr.1) ∘
        (fun p : List Element × α => ((k :: p.1, p.2) : List Element × α)))
      = fun _ => sel k from by
        funext p
        show pathMatches [] sel (k :: p.1) = sel k
        rw [pathMatches_nil]]
    cases hsel : sel k
    · rw [List.filter_eq_nil_iff.mpr (fun _ _ => Bool.false_ne_true)]
      rfl
    · rw [List.filter_eq_self.mpr (fun _ _ => rfl)]
      rw [List.map_map]
      rw [show (Prod.snd ∘ fun p : List Element × α =>
          ((k :: p.1, p.2) : List Element × α)) = Prod.snd from rfl]
      rw [leafPaths_map_snd c]
      rfl

theorem nodeValues_eq_filter {α : Type} (sel : Element → Bool) (n : Node α) :
    nodeValues n sel = ((leafPaths n).filter
      (fun pr => pathMatches [] sel pr.1)).map Prod.snd := by
  cases n with
  | leaf ty s v => rfl
  | interior ty s ns =>
    rw [nodeValues, leafPaths]
    exact selValues_eq_filter sel ns

end HiddenApi

namespace HiddenApi

/-! ## Key and membership lemmas for child dicts -/

theorem findChild_none_iff {α : Type} {ns : List (Element × Node α)}
    {e : Element} : findChild ns e = none ↔ hasChildKey ns e = false := by
  induction ns with
  | nil => simp [findChild, hasChildKey]
  | cons kc rest ih =>
    obtain ⟨k, c⟩ := kc
    by_cases hk : k = e
    · subst hk
      simp [findChild, hasChildKey]
    · rw [findChild, if_neg hk, hasChildKey, List.any_cons]
      rw [show (decide ((k, c).1 = e)) = false from by
        rw [decide_eq_false_iff_not]; exact hk]
      rw [Bool.false_or]
      exact ih

theorem findChild_mem {α : Type} {ns : List (Element × Node α)} {e : Element}
    {c : Node α} (h : findChild ns e = some c) : (e, c) ∈ ns := by
  induction ns with
  | nil => exact absurd h (by simp [findChild])
  | cons kc rest ih =>
    obtain ⟨k, m⟩ := kc
    by_cases hk : k = e
    · subst hk
      rw [findChild, if_pos rfl, Option.some.injEq] at h
      subst h
      exact List.mem_cons_self _ _
    · rw [findChild, if_neg hk] at h
      exact List.mem_cons_of_mem _ (ih h)

theorem wfKeysL_mem {α : Type} {ns : List (Element × Node α)}
    {e : Element} {c : Node α} (hwf : wfKeysL ns = true) (h : (e, c) ∈ ns) :
    wfKeys c = true := by
  induction ns with
  | nil => cases h
  | cons kc rest ih =>
    obtain ⟨k, m⟩ := kc
    rw [wfKeysL, Bool.and_eq_true] at hwf
    rcases List.mem_cons.mp h with h1 | h1
    · cases h1
      exact hwf.1
    · exact ih hwf.2 h1

theorem wfKeys_interior {α : Type} {ty : String} {sel : PyStr}
    {ns : List (Element × Node α)} (h : wfKeys (.interior ty sel ns) = true) :
    keysNodupB (ns.map Prod.fst) = true ∧ wfKeysL ns = true := by
  rw [wfKeys, Bool.and_eq_true] at h
  exact h

theorem hasChildKey_false_of_contains {α : Type} {e : Element} :
    ∀ {ns : List (Element × Node α)},
      (ns.map Prod.fst).contains e = false → hasChildKey ns e = false := by
  intro ns
  induction ns with
  | nil => intro _; rfl
  | cons kc rest ih =>
    obtain ⟨k, c⟩ := kc
    intro h
    rw [List.map_cons, List.contains_cons, Bool.or_eq_false_iff] at h
    rw [hasChildKey, List.any_cons, Bool.or_eq_false_iff]
    refine ⟨?_, ih h.2⟩
    rw [decide_eq_false_iff_not]
    intro hc
    have h1 := h.1
    rw [show k = e from hc, beq_self_eq_true] at h1
    exact Bool.noConfusion h1

/-- Paths through children whose key is not `e` never match a query path
starting with `e`. -/
theorem leafPathsL_filter_no_key {α : Type} {e : Element} (es : List Element)
    (sel : Element → Bool) :
    ∀ {ns : List (Element × Node α)}, hasChildKey ns e = false →
      (leafPathsL ns).filter (fun pr => pathMatches (e :: es) sel pr.1) = [] := by
  intro ns
  induction ns with
  | nil => intro _; rfl
  | cons kc rest ih =>
    obtain ⟨k, c⟩ := kc
    intro h
    rw [hasChildKey, List.any_cons, Bool.or_eq_false_iff] at h
    have hk : k ≠ e := by
      intro hc
      rw [show (decide ((k, c).1 = e)) = true from by
        rw [decide_eq_true_eq]; exact hc] at h
      exact Bool.noConfusion h.1
    rw [leafPathsL, List.filter_append, List.filter_map]
    rw [show ((fun pr : List Element × α => pathMatches (e :: es) sel pr.1) ∘
        (fun p : List Element × α => ((k :: p.1, p.2) : List Element × α)))
      = fun _ => false from by
        funext p
        show pathMatches (e :: es) sel (k :: p.1) = false
        exact pathMatches_cons_ne hk p.1]
    rw [List.filter_eq_nil_iff.mpr (fun _ _ => Bool.false_ne_true), List.map_nil,
      List.nil_append]
    exact ih h.2

/-- With distinct keys, the leaf paths matching a query `e :: es` are exactly
the paths of the child at key `e` matching `es`, re-prefixed with `e`. -/
theorem leafPathsL_filter_found {α : Type} {e : Element} (es : List Element)
    (sel : Element → Bool) :
    ∀ {ns : List (Element × Node α)} {c : Node α},
      keysNodupB (ns.map Prod.fst) = true → findChild ns e = some c →
      (leafPathsL ns).filter (fun pr => pathMatches (e :: es) sel pr.1)
        = ((leafPaths c).filter (fun pr => pathMatches es sel pr.1)).map
            (fun p => (e :: p.1, p.2)) := by
  intro ns
  induction ns with
  | nil => intro c _ h; exact absurd h (by simp [findChild])
  | cons kc rest ih =>
    obtain ⟨k, m⟩ := kc
    intro c hnd hf
    rw [List.map_cons, keysNodupB, Bool.and_eq_true] at hnd
    rw [leafPathsL, List.filter_append, List.filter_map]
    by_cases hk : k = e
    · subst hk
      rw [findChild, if_pos rfl, Option.some.injEq] at hf
      subst hf
      rw [show ((fun pr : List Element × α => pathMatches (k :: es) sel pr.1) ∘
          (fun p : List Element × α => ((k :: p.1, p.2) : List Element × α)))
        = fun p => pathMatches es sel p.1 from by
          funext p
          exact pathMatches_cons_same p.1]
      have hrest : hasChildKey rest k = false := by
        refine hasChildKey_false_of_contains ?_
        have h1 := hnd.1
        rw [Bool.not_eq_eq_eq_not] at h1
        exact h1
      rw [leafPathsL_filter_no_key es sel hrest, List.append_nil]
    · rw [findChild, if_neg hk] at hf
      rw [show ((fun pr : List Element × α => pathMatches (e :: es) sel pr.1) ∘
          (fun p : List Element × α => ((k :: p.1, p.2) : List Element × α)))
        = fun _ => false from by
          funext p
          exact pathMatches_cons_ne hk p.1]
      rw [List.filter_eq_nil_iff.mpr (fun _ _ => Bool.false_ne_true),
        List.map_nil, List.nil_append]
      exact ih hnd.2 hf

end HiddenApi

namespace HiddenApi

/-! ## The trie query as a filter over leaf paths -/

theorem contains_false_iff {α : Type} [BEq α] [LawfulBEq α] {l : List α} {a : α} :
    l.contains a = false ↔ a ∉ l := by
  constructor
  · intro h hm
    have h1 : l.contains a = true := List.elem_iff.mpr hm
    rw [h] at h1
    exact Bool.noConfusion h1
  · intro h
    cases hc : l.contains a
    · rfl
    · exact absurd (List.elem_iff.mp hc) h

theorem mem_leafPathsL_of_child {α : Type} {e : Element} {c : Node α}
    {pr : List Element × α} (hpr : pr ∈ leafPaths c) :
    ∀ {ns : List (Element × Node α)}, (e, c) ∈ ns →
      (e :: pr.1, pr.2) ∈ leafPathsL ns := by
  intro ns
  induction ns with
  | nil => intro h; cases h
  | cons km rest ih =>
    obtain ⟨k, m⟩ := km
    intro h
    rw [leafPathsL, List.mem_append]
    rcases List.mem_cons.mp h with h1 | h1
    · left
      obtain ⟨he, hc⟩ := Prod.mk.injEq .. ▸ h1
      subst he
      subst hc
      exact List.mem_map.mpr ⟨pr, hpr, rfl⟩
    · right
      exact ih h1

/-- The pivotal query theorem: on a trie with well-formed child keys and no
leaf lying strictly above the query path, the lookup walk returns exactly the
values of the leaf paths selected by `pathMatches`. -/
theorem getRowsWalk_eq_filter {α : Type} (sel : Element → Bool) :
    ∀ (es : List Element) (t : Node α), wfKeys t = true →
      (∀ pr ∈ leafPaths t, pr.1.isPrefixOf es = true → pr.1 = es) →
      getRowsWalk sel t es
        = .ok (((leafPaths t).filter (fun pr => pathMatches es sel pr.1)).map
            Prod.snd) := by
  intro es
  induction es with
  | nil =>
    intro t _ _
    rw [getRowsWalk, nodeValues_eq_filter]
  | cons e rest ih =>
    intro t hwf hpre
    cases t with
    | leaf ty s v =>
      have h := hpre ([], v) (by rw [leafPaths]; exact List.mem_singleton.mpr rfl) rfl
      exact absurd h (by intro h1; exact List.noConfusion h1)
    | interior ty s ns =>
      rw [getRowsWalk]
      cases hf : findChild ns e with
      | none =>
        rw [leafPaths, leafPathsL_filter_no_key rest sel (findChild_none_iff.mp hf)]
        rfl
      | some c =>
        have hmem := findChild_mem hf
        have hwf2 := wfKeys_interior hwf
        have hc : wfKeys c = true := wfKeysL_mem hwf2.2 hmem
        have hpre2 : ∀ pr ∈ leafPaths c, pr.1.isPrefixOf rest = true →
            pr.1 = rest := by
          intro pr hpr hp
          have hm2 : (e :: pr.1, pr.2) ∈ leafPaths (Node.interior ty s ns) := by
            rw [leafPaths]
            exact mem_leafPathsL_of_child hpr hmem
          have hp2 : (e :: pr.1).isPrefixOf (e :: rest) = true := by
            rw [List.isPrefixOf_cons₂, beq_self_eq_true, Bool.true_and]
            exact hp
          have h3 := hpre (e :: pr.1, pr.2) hm2 hp2
          exact List.cons.injEq .. ▸ h3 |>.2
        dsimp only
        rw [ih c hc hpre2]
        rw [leafPaths, leafPathsL_filter_found rest sel hwf2.1 hf, List.map_map]
        rfl

end HiddenApi

namespace HiddenApi

/-! ## Key well-formedness is preserved by `add` -/

theorem hasChildKey_iff_mem {α : Type} {ns : List (Element × Node α)}
    {e : Element} : hasChildKey ns e = true ↔ e ∈ ns.map Prod.fst := by
  rw [hasChildKey, List.any_eq_true]
  constructor
  · rintro ⟨p, hp, hdec⟩
    rw [decide_eq_true_eq] at hdec
    exact hdec ▸ List.mem_map.mpr ⟨p, hp, rfl⟩
  · intro h
    obtain ⟨p, hp, he⟩ := List.mem_map.mp h
    exact ⟨p, hp, decide_eq_true he⟩

theorem keysNodupB_append_single {k : Element} :
    ∀ {ks : List Element}, keysNodupB ks = true → ks.contains k = false →
      keysNodupB (ks ++ [k]) = true := by
  intro ks
  induction ks with
  | nil => intro _ _; rfl
  | cons a rest ih =>
    intro hnd hc
    rw [keysNodupB, Bool.and_eq_true] at hnd
    rw [List.contains_cons, Bool.or_eq_false_iff] at hc
    have ha : rest.contains a = false := by
      have h1 := hnd.1
      rw [Bool.not_eq_eq_eq_not] at h1
      exact h1
    have ha2 : (rest ++ [k]).contains a = false := by
      rw [contains_false_iff]
      rw [List.mem_append]
      rintro (hm | hm)
      · exact absurd hm (contains_false_iff.mp ha)
      · have hak : a = k := List.mem_singleton.mp hm
        have h2 := hc.1
        rw [hak, beq_self_eq_true] at h2
        exact Bool.noConfusion h2
    rw [List.cons_append, keysNodupB, ha2, Bool.not_false, Bool.true_and]
    exact ih hnd.2 hc.2

theorem setChild_map_fst {α : Type} (e : Element) (n : Node α) :
    ∀ (ns : List (Element × Node α)),
      (setChild ns e n).map Prod.fst = ns.map Prod.fst := by
  intro ns
  induction ns with
  | nil => rfl
  | cons km rest ih =>
    obtain ⟨k, m⟩ := km
    rw [setChild]
    by_cases hk : k = e
    · rw [if_pos hk]
      rfl
    · rw [if_neg hk, List.map_cons, List.map_cons, ih]

theorem wfKeysL_setChild {α : Type} {e : Element} {n : Node α}
    (hn : wfKeys n = true) :
    ∀ {ns : List (Element × Node α)}, wfKeysL ns = true →
      wfKeysL (setChild ns e n) = true := by
  intro ns
  induction ns with
  | nil => intro _; rfl
  | cons km rest ih =>
    obtain ⟨k, m⟩ := km
    intro h
    rw [wfKeysL, Bool.and_eq_true] at h
    rw [setChild]
    by_cases hk : k = e
    · rw [if_pos hk, wfKeysL, hn, h.2]
      rfl
    · rw [if_neg hk, wfKeysL, h.1, ih h.2]
      rfl

theorem wfKeysL_append_single {α : Type} {e : Element} {n : Node α}
    (hn : wfKeys n = true) :
    ∀ {ns : List (Element × Node α)}, wfKeysL ns = true →
      wfKeysL (ns ++ [(e, n)]) = true := by
  intro ns
  induction ns with
  | nil =>
    intro _
    rw [List.nil_append, wfKeysL, hn, wfKeysL]
    rfl
  | cons km rest ih =>
    obtain ⟨k, m⟩ := km
    intro h
    rw [wfKeysL, Bool.and_eq_true] at h
    rw [List.cons_append, wfKeysL, h.1, ih h.2]
    rfl

/-- `addWalk` preserves well-formed (duplicate-free) child keys everywhere. -/
theorem wfKeys_addWalk {α : Type} (sig : PyStr) (v : α) (b : Bool)
    (allE : List Element) :
    ∀ (es : List Element) (t : Node α) (idx : Nat), wfKeys t = true →
      wfKeys (addWalk sig v b allE es t idx).1 = true
  | [], t, idx, h => by rw [addWalk]; exact h
  | [last], t, idx, h => by
    by_cases hm : elementType last ≠ "member"
    · rw [addWalk_last_notMember sig v b allE last t idx hm]
      exact h
    · cases t with
      | leaf lty lsel lval =>
        rw [addWalk_last_leaf sig v b allE last lty lsel lval idx hm]
        exact h
      | interior ty sel ns =>
        by_cases hk : hasChildKey ns last = true
        · rw [addWalk_last_dup sig v b allE last ty sel idx hm hk]
          exact h
        · rw [addWalk_last_insert sig v b allE last ty sel idx hm hk]
          have h2 := wfKeys_interior h
          rw [wfKeys, Bool.and_eq_true]
          constructor
          · rw [List.map_append, List.map_cons, List.map_nil]
            dsimp only
            refine keysNodupB_append_single h2.1 ?_
            rw [contains_false_iff]
            intro hmem
            exact hk (hasChildKey_iff_mem.mpr hmem)
          · refine wfKeysL_append_single ?_ h2.2
            rfl
  | e :: e2 :: rest, t, idx, h => by
    cases t with
    | leaf lty lsel lval =>
      rw [addWalk_leaf]
      exact h
    | interior ty sel ns =>
      have h2 := wfKeys_interior h
      cases hf : findChild ns e with
      | some child =>
        rw [addWalk_found sig v b allE e e2 rest ty sel idx hf]
        have hchild : wfKeys child = true := wfKeysL_mem h2.2 (findChild_mem hf)
        have hrec := wfKeys_addWalk sig v b allE (e2 :: rest) child (idx + 1) hchild
        rw [wfKeys, Bool.and_eq_true]
        constructor
        · rw [setChild_map_fst]
          exact h2.1
        · exact wfKeysL_setChild hrec h2.2
      | none =>
        by_cases hb : b = true ∧ idx = 0
        · rw [addWalk_skip sig v b allE e e2 rest ty sel idx hf hb]
          exact h
        · rw [addWalk_notFound sig v b allE e e2 rest ty sel idx hf hb]
          have hrec := wfKeys_addWalk sig v b allE (e2 :: rest)
            (.interior (elementType e) (elements_to_selector (allE.take (idx + 1))) [])
            (idx + 1) rfl
          rw [wfKeys, Bool.and_eq_true]
          constructor
          · rw [List.map_append, List.map_cons, List.map_nil]
            dsimp only
            refine keysNodupB_append_single h2.1 ?_
            rw [contains_false_iff]
            intro hmem
            have := hasChildKey_iff_mem.mpr hmem
            rw [findChild_none_iff.mp hf] at this
            exact Bool.noConfusion this
          · exact wfKeysL_append_single hrec h2.2

/-- Every trie the source ever builds has duplicate-free child keys. -/
theorem Built_wfKeys {α : Type} {t : Node α} (h : Built t) : wfKeys t = true := by
  induction h with
  | empty => rfl
  | step t s v b _ ih =>
    rw [Node.add]
    cases hse : signature_to_elements s with
    | error e => exact ih
    | ok elements => exact wfKeys_addWalk s v b elements elements t 0 ih

end HiddenApi

namespace HiddenApi

/-! ## Successful inserts are found again; absent paths yield empty results -/

/-- After a successful (default-mode) `addWalk` of `es`, walking the same
`es` reaches the new `Leaf` and returns exactly its value, for any selector. -/
theorem addWalk_success_query {α : Type} (sig : PyStr) (v : α)
    (sel : Element → Bool) (allE : List Element) :
    ∀ (es : List Element) (t : Node α) (idx : Nat), es ≠ [] →
      (addWalk sig v false allE es t idx).2 = none →
      getRowsWalk sel (addWalk sig v false allE es t idx).1 es = .ok [v]
  | [], _, _, hne, _ => absurd rfl hne
  | [last], t, idx, _, hsucc => by
    by_cases hm : elementType last ≠ "member"
    · rw [addWalk_last_notMember sig v false allE last t idx hm] at hsucc
      exact Option.noConfusion hsucc
    · cases t with
      | leaf lty lsel lval =>
        rw [addWalk_last_leaf sig v false allE last lty lsel lval idx hm] at hsucc
        exact Option.noConfusion hsucc
      | interior ty sl ns =>
        by_cases hk : hasChildKey ns last = true
        · rw [addWalk_last_dup sig v false allE last ty sl idx hm hk] at hsucc
          dsimp only at hsucc
          exact Option.noConfusion hsucc
        · rw [addWalk_last_insert sig v false allE last ty sl idx hm hk]
          dsimp only
          have hfn : findChild ns last = none := by
            rw [findChild_none_iff]
            cases hx : hasChildKey ns last
            · rfl
            · exact absurd hx hk
          rw [getRowsWalk, findChild_append_none _ hfn, findChild, if_pos rfl]
          rfl
  | e :: e2 :: rest, t, idx, _, hsucc => by
    cases t with
    | leaf lty lsel lval =>
      rw [addWalk_leaf] at hsucc
      exact Option.noConfusion hsucc
    | interior ty sl ns =>
      cases hf : findChild ns e with
      | some child =>
        rw [addWalk_found sig v false allE e e2 rest ty sl idx hf] at hsucc ⊢
        dsimp only at hsucc ⊢
        rw [getRowsWalk, findChild_setChild_some _ hf]
        exact addWalk_success_query sig v sel allE (e2 :: rest) child (idx + 1)
          (List.cons_ne_nil _ _) hsucc
      | none =>
        have hb : ¬ (false = true ∧ idx = 0) := by
          rintro ⟨h1, -⟩
          exact Bool.noConfusion h1
        rw [addWalk_notFound sig v false allE e e2 rest ty sl idx hf hb] at hsucc ⊢
        dsimp only at hsucc ⊢
        rw [getRowsWalk, findChild_append_none _ hf, findChild, if_pos rfl]
        exact addWalk_success_query sig v sel allE (e2 :: rest) _ (idx + 1)
          (List.cons_ne_nil _ _) hsucc

/-- If no leaf lies strictly above the query path and the path itself is
absent, the lookup walk returns the empty result (not an error). -/
theorem getRowsWalk_absent {α : Type} (sel : Element → Bool) :
    ∀ (es : List Element) (t : Node α),
      (∀ pr ∈ leafPaths t, pr.1.isPrefixOf es = true → pr.1 = es) →
      hasNodePath t es = false →
      getRowsWalk sel t es = .ok [] := by
  intro es
  induction es with
  | nil =>
    intro t _ habs
    rw [hasNodePath] at habs
    exact Bool.noConfusion habs
  | cons e rest ih =>
    intro t hpre habs
    cases t with
    | leaf ty s v =>
      have h := hpre ([], v) (by rw [leafPaths]; exact List.mem_singleton.mpr rfl) rfl
      exact absurd h (by intro h1; exact List.noConfusion h1)
    | interior ty s ns =>
      rw [getRowsWalk]
      cases hf : findChild ns e with
      | none => rfl
      | some c =>
        dsimp only
        have hmem := findChild_mem hf
        have habs2 : hasNodePath c rest = false := by
          rw [hasNodePath, hf] at habs
          exact habs
        refine ih c ?_ habs2
        intro pr hpr hp
        have hm2 : (e :: pr.1, pr.2) ∈ leafPaths (Node.interior ty s ns) := by
          rw [leafPaths]
          exact mem_leafPathsL_of_child hpr hmem
        have hp2 : (e :: pr.1).isPrefixOf (e :: rest) = true := by
          rw [List.isPrefixOf_cons₂, beq_self_eq_true, Bool.true_and]
          exact hp
        have h3 := hpre (e :: pr.1, pr.2) hm2 hp2
        exact List.cons.injEq .. ▸ h3 |>.2

end HiddenApi

namespace HiddenApi

/-- C7 (corrected): inserting a valid full member signature `s` with value
`v` (default mode, successful insert) and querying the same trie with `s` as
the pattern returns exactly `[v]`; and a query whose element path is absent
from the trie returns the empty result rather than an error, *provided* the
walk does not step through a `Leaf` (no inserted signature is a strict
prefix of the pattern path) — the unconditional second half of the claim is
refuted by `claim_C7_counterexample`, where the walk hits a `Leaf` and the
query raises Python's `AttributeError` instead. -/
theorem claim_C7 {α : Type} (s : PyStr) (v : α) (t : Node α)
    (es : List Element)
    (hse : signature_to_elements s = .ok es)
    (hm : elementType (es.getLastD ("", [])) = "member")
    (hsucc : (Node.add t s v).2 = none) :
    (Node.add t s v).1.get_matching_rows s = .ok [v]
  ∧ ∀ (u : Node α) (es2 : List Element) (sel2 : Element → Bool),
      (∀ pr ∈ leafPaths u, pr.1.isPrefixOf es2 = true → pr.1 = es2) →
      hasNodePath u es2 = false →
      getRowsWalk sel2 u es2 = .ok [] := by
  constructor
  · rw [Node.get_matching_rows, hse]
    dsimp only
    have hnw : ¬ elementType (es.getLastD ("", [])) = "wildcard" := by
      rw [hm]
      intro hc
      exact absurd hc (by decide)
    rw [if_neg hnw]
    rw [Node.add, hse] at hsucc ⊢
    exact addWalk_success_query s v _ es es t 0
      (signature_to_elements_ok_ne_nil hse) hsucc
  · intro u es2 sel2 hpre habs
    exact getRowsWalk_absent sel2 es2 u hpre habs

/-- C7 counterexample: the claim's second half is false without a caveat; a
pattern whose path extends beyond an inserted signature steps into a `Leaf`
and the query raises `AttributeError` rather than returning the empty
result, exactly as the Python does when it reads `.nodes` off a `Leaf`. -/
theorem claim_C7_counterexample :
    (Node.add (signature_trie (α := Nat)) (pystr "La/B;->m()V") 0).1.get_matching_rows
        (pystr "La/B;->m()V;->x")
      = .error .attributeError := by decide

theorem claim_C7_witness :
    signature_to_elements (pystr "La/B;->m()V")
        = .ok [("package", pystr "a"), ("class", pystr "B"), ("member", pystr "m()V")]
    ∧ elementType (([("package", pystr "a"), ("class", pystr "B"),
        ("member", pystr "m()V")] : List Element).getLastD ("", [])) = "member"
    ∧ (Node.add (signature_trie (α := Nat)) (pystr "La/B;->m()V") 0).2 = none
    ∧ (Node.add (signature_trie (α := Nat)) (pystr "La/B;->m()V") 0).1.get_matching_rows
        (pystr "La/B;->m()V") = .ok [0] :=
  ⟨by decide, by decide, by decide,
    (claim_C7 (pystr "La/B;->m()V") 0 signature_trie
      [("package", pystr "a"), ("class", pystr "B"), ("member", pystr "m()V")]
      (by decide) (by decide) (by decide)).1⟩

end HiddenApi

namespace HiddenApi

/-! ## Wildcard-pattern decomposition and the package queries -/

theorem pathMatches_true_sel (es p : List Element) :
    pathMatches es (fun _ : Element => true) p = es.isPrefixOf p := by
  rw [pathMatches]
  cases hd : p.drop es.length with
  | nil => exact Bool.and_true _
  | cons k ks => exact Bool.and_true _

/-- Decomposing a pattern `p ++ "/" ++ w` where `w` is a valid wildcard
token, `p` has no member separator and the text keeps no leading `L`
sentinel yields the package elements of `p` followed by one wildcard
element. -/
theorem signature_to_elements_pkg_wildcard (p w : PyStr)
    (hw1 : pyContainsChar w '*' = true)
    (hw2 : ¬ (w ≠ pystr "*" ∧ w ≠ pystr "**"))
    (hwc : w.contains '/' = false)
    (hL : pyRemovePrefix (p ++ '/' :: w) (pystr "L") = p ++ '/' :: w)
    (hm : pySplit (pystr ";->") (p ++ '/' :: w) = [p ++ '/' :: w]) :
    signature_to_elements (p ++ '/' :: w)
      = .ok (pkgElems p ++ [("wildcard", w)]) := by
  have hq : qualifiedPart (p ++ '/' :: w) = p ++ '/' :: w := by
    rw [qualifiedPart, hL, hm]
    rfl
  have hps : pathSegments (p ++ '/' :: w) = pySplit (pystr "/") p ++ [w] := by
    rw [pathSegments, hq]
    rw [show (pystr "/") = ['/'] from rfl]
    rw [pySplit_char_append '/' p w,
      pySplit_eq_single (by decide) (occursIn_of_not_contains rfl hwc)]
  have hls : lastSegment (p ++ '/' :: w) = w := by
    rw [lastSegment, hps]
    exact List.getLastD_concat _ _ _
  have hmp : memberParts (p ++ '/' :: w) = [] := by
    rw [memberParts, hL, hm]
    rfl
  rw [signature_to_elements, hls, if_pos hw1, if_neg hw2]
  rw [if_neg (show ¬ memberParts (p ++ '/' :: w) ≠ [] from by
    rw [hmp]; exact fun h => h rfl)]
  rw [hps, List.dropLast_concat]
  rfl

end HiddenApi

namespace HiddenApi

/-- C6 (confirmed): on a trie with duplicate-free child keys and no leaf
lying strictly above the package path of `p` (true of every trie whose
signatures were inserted under `p`), the query `p ++ "/**"` returns the
values of *all* leaf paths extending the package elements of `p`, while the
query `p ++ "/*"` returns only those whose first step below `p` is not a
`"package"` element — i.e. leaves directly in `p` (class children and their
nested classes/members), excluding everything inserted under a sub-package.
The side conditions say the pattern text is a plain package pattern: the
leading-`L` strip and the member-separator split leave it whole. -/
theorem claim_C6 {α : Type} (t : Node α) (p : PyStr)
    (hwf : wfKeys t = true)
    (hpre : ∀ pr ∈ leafPaths t, pr.1.isPrefixOf (pkgElems p) = true →
      pr.1 = pkgElems p)
    (hL2 : pyRemovePrefix (p ++ pystr "/**") (pystr "L") = p ++ pystr "/**")
    (hm2 : pySplit (pystr ";->") (p ++ pystr "/**") = [p ++ pystr "/**"])
    (hL1 : pyRemovePrefix (p ++ pystr "/*") (pystr "L") = p ++ pystr "/*")
    (hm1 : pySplit (pystr ";->") (p ++ pystr "/*") = [p ++ pystr "/*"]) :
    t.get_matching_rows (p ++ pystr "/**")
        = .ok (((leafPaths t).filter
            (fun pr => (pkgElems p).isPrefixOf pr.1)).map Prod.snd)
  ∧ t.get_matching_rows (p ++ pystr "/*")
        = .ok (((leafPaths t).filter
            (fun pr => pathMatches (pkgElems p) nonPackageSel pr.1)).map
              Prod.snd) := by
  have hd2 : signature_to_elements (p ++ pystr "/**")
      = .ok (pkgElems p ++ [("wildcard", pystr "**")]) :=
    signature_to_elements_pkg_wildcard p (pystr "**") (by decide) (by decide)
      (by decide) hL2 hm2
  have hd1 : signature_to_elements (p ++ pystr "/*")
      = .ok (pkgElems p ++ [("wildcard", pystr "*")]) :=
    signature_to_elements_pkg_wildcard p (pystr "*") (by decide) (by decide)
      (by decide) hL1 hm1
  constructor
  · rw [Node.get_matching_rows, hd2]
    dsimp only
    rw [List.getLastD_concat]
    rw [if_pos (show elementType (("wildcard", pystr "**") : Element)
      = "wildcard" from rfl)]
    rw [if_neg (show ¬ (("wildcard", pystr "**") : Element).2 = pystr "*" from
      by decide)]
    rw [List.dropLast_concat]
    rw [getRowsWalk_eq_filter (fun _ => true) (pkgElems p) t hwf hpre]
    rw [show (fun pr : List Element × α =>
          pathMatches (pkgElems p) (fun _ => true) pr.1)
        = (fun pr : List Element × α => (pkgElems p).isPrefixOf pr.1) from by
      funext pr
      exact pathMatches_true_sel _ _]
  · rw [Node.get_matching_rows, hd1]
    dsimp only
    rw [List.getLastD_concat]
    rw [if_pos (show elementType (("wildcard", pystr "*") : Element)
      = "wildcard" from rfl)]
    rw [if_pos (show (("wildcard", pystr "*") : Element).2 = pystr "*" from rfl)]
    rw [List.dropLast_concat]
    rw [getRowsWalk_eq_filter nonPackageSel (pkgElems p) t hwf hpre]

theorem claim_C6_witness :
    wfKeys (addAll (signature_trie (α := Nat))
        [(pystr "La/b/C;->m()V", 1), (pystr "La/b/sub/D;->n()V", 2)]).1 = true
    ∧ (∀ pr ∈ leafPaths (addAll (signature_trie (α := Nat))
          [(pystr "La/b/C;->m()V", 1), (pystr "La/b/sub/D;->n()V", 2)]).1,
        pr.1.isPrefixOf (pkgElems (pystr "a/b")) = true →
          pr.1 = pkgElems (pystr "a/b"))
    ∧ (addAll (signature_trie (α := Nat))
          [(pystr "La/b/C;->m()V", 1), (pystr "La/b/sub/D;->n()V", 2)]).1.get_matching_rows
        (pystr "a/b" ++ pystr "/**")
        = .ok [1, 2]
    ∧ (addAll (signature_trie (α := Nat))
          [(pystr "La/b/C;->m()V", 1), (pystr "La/b/sub/D;->n()V", 2)]).1.get_matching_rows
        (pystr "a/b" ++ pystr "/*")
        = .ok [1] := by
  refine ⟨by decide, by decide, ?_, ?_⟩
  · rw [(claim_C6 (addAll (signature_trie (α := Nat))
        [(pystr "La/b/C;->m()V", 1), (pystr "La/b/sub/D;->n()V", 2)]).1
      (pystr "a/b") (by decide) (by decide) (by decide) (by decide) (by decide)
      (by decide)).1]
    decide
  · rw [(claim_C6 (addAll (signature_trie (α := Nat))
        [(pystr "La/b/C;->m()V", 1), (pystr "La/b/sub/D;->n()V", 2)]).1
      (pystr "a/b") (by decide) (by decide) (by decide) (by decide) (by decide)
      (by decide)).2]
    decide

end HiddenApi

namespace HiddenApi

/-! ## Occurrence and prefix toolkit for the selector round trip -/

theorem occursIn_iff_isInfix {sep : PyStr} :
    ∀ {s : PyStr}, occursIn sep s = true ↔ sep <:+: s := by
  intro s
  induction s with
  | nil =>
    rw [occursIn, List.isPrefixOf_iff_prefix]
    constructor
    · intro h
      exact h.isInfix
    · intro h
      rw [List.infix_nil] at h
      subst h
      exact List.nil_prefix
  | cons c rest ih =>
    rw [occursIn, Bool.or_eq_true, List.isPrefixOf_iff_prefix, ih,
      List.infix_cons_iff]

theorem occursIn_false_of_infix {sep x p : PyStr} (hx : occursIn sep x = false)
    (hpx : p <:+: x) : occursIn sep p = false := by
  cases h : occursIn sep p with
  | false => rfl
  | true =>
    have h2 : occursIn sep x = true := occursIn_iff_isInfix.mpr
      ((occursIn_iff_isInfix.mp h).trans hpx)
    rw [hx] at h2
    exact Bool.noConfusion h2

theorem nil_isPrefixOf {α : Type} [BEq α] (l : List α) :
    ([] : List α).isPrefixOf l = true := by
  cases l <;> rfl

theorem isPrefixOf_append_left {α : Type} [BEq α] {l : List α} (b : List α) :
    ∀ {a : List α}, l.length ≤ a.length → l.isPrefixOf (a ++ b) = l.isPrefixOf a := by
  induction l with
  | nil => intro a _; rw [nil_isPrefixOf, nil_isPrefixOf]
  | cons c l' ih =>
    intro a hle
    cases a with
    | nil => simp at hle
    | cons d a' =>
      rw [List.cons_append, List.isPrefixOf_cons₂, List.isPrefixOf_cons₂,
        ih (by simp only [List.length_cons] at hle; omega)]

theorem mem_of_isPrefixOf_append {α : Type} [BEq α] [LawfulBEq α] {l b : List α}
    {x : α} :
    ∀ {a : List α}, l.isPrefixOf (a ++ x :: b) = true → a.length < l.length →
      x ∈ l := by
  intro a
  induction a generalizing l with
  | nil =>
    intro h hlen
    cases l with
    | nil => simp at hlen
    | cons c l' =>
      rw [List.nil_append, List.isPrefixOf_cons₂, Bool.and_eq_true] at h
      exact (eq_of_beq h.1) ▸ List.mem_cons_self _ _
  | cons d a' ih =>
    intro h hlen
    cases l with
    | nil => simp at hlen
    | cons c l' =>
      rw [List.cons_append, List.isPrefixOf_cons₂, Bool.and_eq_true] at h
      exact List.mem_cons_of_mem _
        (ih h.2 (by simp only [List.length_cons] at hlen; omega))

theorem occursIn_ne_nil {a : PyStr} {sep : PyStr}
    (ha : occursIn sep a = false) : sep ≠ [] := by
  intro hs
  subst hs
  cases a with
  | nil => exact Bool.noConfusion ha
  | cons c r =>
    rw [occursIn, Bool.or_eq_false_iff] at ha
    exact Bool.noConfusion ha.1

theorem occursIn_append_char {sep : PyStr} {ch : Char}
    (hch : sep.contains ch = false) :
    ∀ {a : PyStr} (b : PyStr), occursIn sep a = false → occursIn sep b = false →
      occursIn sep (a ++ ch :: b) = false := by
  intro a
  induction a with
  | nil =>
    intro b ha hb
    rw [List.nil_append, occursIn, Bool.or_eq_false_iff]
    refine ⟨?_, hb⟩
    cases hP : sep.isPrefixOf (ch :: b) with
    | false => rfl
    | true =>
      exfalso
      have hx : ch ∈ sep := mem_of_isPrefixOf_append
        (show sep.isPrefixOf ([] ++ ch :: b) = true from hP)
        (List.length_pos.mpr (occursIn_ne_nil ha))
      have h2 : sep.contains ch = true := List.elem_iff.mpr hx
      rw [hch] at h2
      exact Bool.noConfusion h2
  | cons c a' ih =>
    intro b ha hb
    rw [occursIn, Bool.or_eq_false_iff] at ha
    rw [List.cons_append, occursIn, Bool.or_eq_false_iff]
    refine ⟨?_, ih b ha.2 hb⟩
    cases hP : sep.isPrefixOf (c :: (a' ++ ch :: b)) with
    | false => rfl
    | true =>
      exfalso
      by_cases hle : sep.length ≤ (c :: a').length
      · have h3 : sep.isPrefixOf (c :: a') = true := by
          rw [← isPrefixOf_append_left (ch :: b) hle]
          exact hP
        rw [ha.1] at h3
        exact Bool.noConfusion h3
      · have hx : ch ∈ sep := mem_of_isPrefixOf_append
          (show sep.isPrefixOf ((c :: a') ++ ch :: b) = true from hP)
          (Nat.lt_of_not_le hle)
        have h2 : sep.contains ch = true := List.elem_iff.mpr hx
        rw [hch] at h2
        exact Bool.noConfusion h2

theorem occursIn_singleton (ch : Char) :
    ∀ (s : PyStr), occursIn [ch] s = s.contains ch := by
  intro s
  induction s with
  | nil => rfl
  | cons c r ih =>
    rw [occursIn, ih, List.contains_cons]
    congr 1
    rw [List.isPrefixOf_cons₂, nil_isPrefixOf r, Bool.and_true]

end HiddenApi

namespace HiddenApi

/-! ## Structure of `pySplit`: pieces, gluing, and re-splitting -/

theorem occursIn_nil {sep : PyStr} (hsep : sep ≠ []) : occursIn sep [] = false := by
  cases sep with
  | nil => exact absurd rfl hsep
  | cons a as => rfl

/-- The first piece of a split is a prefix of the string. -/
theorem pySplit_first_isPrefix {sep : PyStr} (hsep : sep ≠ []) :
    ∀ (n : Nat) (x : PyStr), x.length ≤ n →
      ∀ {q : PyStr} {qs : List PyStr}, pySplit sep x = q :: qs → q <+: x := by
  intro n
  induction n with
  | zero =>
    intro x hx q qs h
    cases x with
    | nil =>
      rw [pySplit_nil hsep] at h
      cases h
      exact List.nil_prefix
    | cons c r => simp at hx
  | succ m ih =>
    intro x hx q qs h
    cases x with
    | nil =>
      rw [pySplit_nil hsep] at h
      cases h
      exact List.nil_prefix
    | cons c r =>
      rw [pySplit_cons hsep] at h
      by_cases hP : sep.isPrefixOf (c :: r) = true
      · rw [if_pos hP] at h
        cases h
        exact List.nil_prefix
      · rw [if_neg hP] at h
        rcases hq : pySplit sep r with _ | ⟨p, ps⟩
        · exact absurd hq (pySplit_ne_nil _ _)
        · simp only [hq] at h
          cases h
          exact List.cons_prefix_cons.mpr ⟨rfl,
            ih r (by simp only [List.length_cons] at hx; omega) hq⟩

/-- No piece of a split contains the separator. -/
theorem pySplit_pieces_free {sep : PyStr} (hsep : sep ≠ []) :
    ∀ (n : Nat) (x : PyStr), x.length ≤ n →
      ∀ p ∈ pySplit sep x, occursIn sep p = false := by
  intro n
  induction n with
  | zero =>
    intro x hx p hp
    cases x with
    | nil =>
      rw [pySplit_nil hsep] at hp
      rw [List.mem_singleton.mp hp]
      exact occursIn_nil hsep
    | cons c r => simp at hx
  | succ m ih =>
    intro x hx p hp
    cases x with
    | nil =>
      rw [pySplit_nil hsep] at hp
      rw [List.mem_singleton.mp hp]
      exact occursIn_nil hsep
    | cons c r =>
      have hs1 : 0 < sep.length := List.length_pos.mpr hsep
      have hr : r.length ≤ m := by simp only [List.length_cons] at hx; omega
      rw [pySplit_cons hsep] at hp
      by_cases hP : sep.isPrefixOf (c :: r) = true
      · rw [if_pos hP] at hp
        rcases List.mem_cons.mp hp with h1 | h1
        · rw [h1]
          exact occursIn_nil hsep
        · exact ih ((c :: r).drop sep.length)
            (by simp only [List.length_drop, List.length_cons]; omega) p h1
      · rw [if_neg hP] at hp
        rcases hq : pySplit sep r with _ | ⟨q, qs⟩
        · exact absurd hq (pySplit_ne_nil _ _)
        · simp only [hq] at hp
          rcases List.mem_cons.mp hp with h1 | h1
          · subst h1
            rw [occursIn, Bool.or_eq_false_iff]
            constructor
            · cases hPP : sep.isPrefixOf (c :: q) with
              | false => rfl
              | true =>
                exfalso
                have hq_pre : q <+: r := pySplit_first_isPrefix hsep m r hr hq
                have h3 : sep.isPrefixOf (c :: r) = true :=
                  List.isPrefixOf_iff_prefix.mpr
                    ((List.isPrefixOf_iff_prefix.mp hPP).trans
                      (List.cons_prefix_cons.mpr ⟨rfl, hq_pre⟩))
                exact hP h3
            · exact ih r hr q (by rw [hq]; exact List.mem_cons_self _ _)
          · exact ih r hr p (by rw [hq]; exact List.mem_cons_of_mem _ h1)

/-- Gluing the pieces of a split back with the separator restores the
string (Python `sep.join(s.split(sep)) == s`). -/
theorem glueSep_pySplit {sep : PyStr} (hsep : sep ≠ []) :
    ∀ (n : Nat) (x : PyStr), x.length ≤ n →
      ∀ {q : PyStr} {qs : List PyStr}, pySplit sep x = q :: qs →
        glueSep sep q qs = x := by
  intro n
  induction n with
  | zero =>
    intro x hx q qs h
    cases x with
    | nil =>
      rw [pySplit_nil hsep] at h
      cases h
      rfl
    | cons c r => simp at hx
  | succ m ih =>
    intro x hx q qs h
    cases x with
    | nil =>
      rw [pySplit_nil hsep] at h
      cases h
      rfl
    | cons c r =>
      have hs1 : 0 < sep.length := List.length_pos.mpr hsep
      rw [pySplit_cons hsep] at h
      by_cases hP : sep.isPrefixOf (c :: r) = true
      · rw [if_pos hP] at h
        rcases hq2 : pySplit sep ((c :: r).drop sep.length) with _ | ⟨q2, qs2⟩
        · exact absurd hq2 (pySplit_ne_nil _ _)
        · rw [hq2] at h
          cases h
          have hrec : glueSep sep q2 qs2 = (c :: r).drop sep.length := ih _
            (by simp only [List.length_drop, List.length_cons] at hx ⊢; omega) hq2
          rw [glueSep, List.map_cons, List.flatten_cons, List.nil_append,
            List.append_assoc,
            show q2 ++ (List.map (fun x => sep ++ x) qs2).flatten
              = glueSep sep q2 qs2 from rfl,
            hrec]
          have hpre : sep = (c :: r).take sep.length :=
            List.prefix_iff_eq_take.mp (List.isPrefixOf_iff_prefix.mp hP)
          calc sep ++ (c :: r).drop sep.length
              = (c :: r).take sep.length ++ (c :: r).drop sep.length :=
                congrArg (fun z => z ++ (c :: r).drop sep.length) hpre
            _ = c :: r := List.take_append_drop _ _
      · rw [if_neg hP] at h
        rcases hq : pySplit sep r with _ | ⟨q2, qs2⟩
        · exact absurd hq (pySplit_ne_nil _ _)
        · simp only [hq] at h
          obtain ⟨h1, h2⟩ := List.cons.injEq .. |>.mp h
          subst h1
          subst h2
          have hrec : glueSep sep q2 qs2 = r := ih r
            (by simp only [List.length_cons] at hx; omega) hq
          rw [glueSep, List.cons_append,
            show q2 ++ (List.map (fun x => sep ++ x) qs2).flatten
              = glueSep sep q2 qs2 from rfl,
            hrec]

/-- Splitting a single-character glue of character-free pieces recovers the
pieces. -/
theorem pySplit_glue_char (ch : Char) :
    ∀ (ps : List PyStr) (p : PyStr), occursIn [ch] p = false →
      (∀ x ∈ ps, occursIn [ch] x = false) →
      pySplit [ch] (glueSep [ch] p ps) = p :: ps := by
  intro ps
  induction ps with
  | nil =>
    intro p hp _
    rw [glueSep, List.map_nil, List.flatten_nil, List.append_nil]
    exact pySplit_eq_single (by simp) hp
  | cons q rest ih =>
    intro p hp hall
    rw [glueSep, List.map_cons, List.flatten_cons,
      show ([ch] ++ q) ++ (List.map (fun x => [ch] ++ x) rest).flatten
        = ch :: glueSep [ch] q rest from by rw [glueSep]; rfl]
    rw [pySplit_char_append ch p (glueSep [ch] q rest),
      pySplit_eq_single (by simp) hp,
      ih q (hall q (List.mem_cons_self _ _))
        (fun x hx => hall x (List.mem_cons_of_mem _ hx))]
    rfl

/-- Splitting `p ++ sep ++ t` on an overlap-free separator that does not
occur in `p` takes `p` as the first piece. -/
theorem pySplit_append_sep {sep : PyStr} (hsep : sep ≠ [])
    (hov : sepOverlapFree sep) :
    ∀ (p t : PyStr), occursIn sep p = false →
      pySplit sep (p ++ sep ++ t) = p :: pySplit sep t := by
  intro p
  induction p with
  | nil =>
    intro t hp
    obtain ⟨a, as, hS⟩ : ∃ a as, sep = a :: as := by
      cases sep with
      | nil => exact absurd rfl hsep
      | cons a as => exact ⟨a, as, rfl⟩
    subst hS
    rw [List.nil_append, List.cons_append, pySplit_cons hsep]
    rw [if_pos (show (a :: as).isPrefixOf (a :: (as ++ t)) = true from
      List.isPrefixOf_iff_prefix.mpr
        (show (a :: as) <+: (a :: as) ++ t from List.prefix_append _ _))]
    rw [show (a :: (as ++ t)).drop (a :: as).length = t from
      List.drop_left (a :: as) t]
  | cons c p' ih =>
    intro t hp
    rw [occursIn, Bool.or_eq_false_iff] at hp
    rw [List.cons_append, List.cons_append, pySplit_cons hsep]
    have hcond : sep.isPrefixOf (c :: (p' ++ sep ++ t)) = false := by
      cases hP : sep.isPrefixOf (c :: (p' ++ sep ++ t)) with
      | false => rfl
      | true =>
        exfalso
        have hpre : sep <+: (c :: p') ++ (sep ++ t) := by
          have h0 := List.isPrefixOf_iff_prefix.mp hP
          rw [show (c :: p') ++ (sep ++ t) = c :: (p' ++ sep ++ t) from by
            rw [List.cons_append, List.append_assoc]]
          exact h0
        have h1 : sep = ((c :: p') ++ (sep ++ t)).take sep.length :=
          List.prefix_iff_eq_take.mp hpre
        rw [List.take_append_eq_append_take] at h1
        by_cases hle : sep.length ≤ (c :: p').length
        · rw [Nat.sub_eq_zero_of_le hle, List.take_zero, List.append_nil] at h1
          have h2 : sep.isPrefixOf (c :: p') = true :=
            List.isPrefixOf_iff_prefix.mpr (List.prefix_iff_eq_take.mpr h1)
          rw [hp.1] at h2
          exact Bool.noConfusion h2
        · have hlt : (c :: p').length < sep.length := Nat.lt_of_not_le hle
          rw [List.take_of_length_le (Nat.le_of_lt hlt)] at h1
          have hdrop : sep.drop (c :: p').length
              = (sep ++ t).take (sep.length - (c :: p').length) := by
            have h3 := congrArg (List.drop (c :: p').length) h1
            rw [List.drop_left] at h3
            exact h3
          have htake : (sep ++ t).take (sep.length - (c :: p').length)
              = sep.take (sep.length - (c :: p').length) := by
            rw [List.take_append_eq_append_take,
              Nat.sub_eq_zero_of_le (Nat.sub_le _ _), List.take_zero,
              List.append_nil]
          exact hov (c :: p').length (by simp) hlt (by rw [hdrop, htake])
    rw [if_neg (by rw [hcond]; exact Bool.false_ne_true)]
    rw [ih t hp.2]

/-- Splitting a glue of separator-free pieces on an overlap-free separator
recovers the pieces. -/
theorem pySplit_glue {sep : PyStr} (hsep : sep ≠ [])
    (hov : sepOverlapFree sep) :
    ∀ (ps : List PyStr) (p : PyStr), occursIn sep p = false →
      (∀ x ∈ ps, occursIn sep x = false) →
      pySplit sep (glueSep sep p ps) = p :: ps := by
  intro ps
  induction ps with
  | nil =>
    intro p hp _
    rw [glueSep, List.map_nil, List.flatten_nil, List.append_nil]
    exact pySplit_eq_single hsep hp
  | cons q rest ih =>
    intro p hp hall
    rw [glueSep, List.map_cons, List.flatten_cons,
      show (sep ++ q) ++ (List.map (fun x => sep ++ x) rest).flatten
        = sep ++ glueSep sep q rest from by rw [glueSep, List.append_assoc],
      show p ++ (sep ++ glueSep sep q rest) = p ++ sep ++ glueSep sep q rest from
        (List.append_assoc _ _ _).symm]
    rw [pySplit_append_sep hsep hov p (glueSep sep q rest) hp,
      ih q (hall q (List.mem_cons_self _ _))
        (fun x hx => hall x (List.mem_cons_of_mem _ hx))]

end HiddenApi

namespace HiddenApi

/-! ## Rendering the selector text -/

theorem selectorSeparator_package (prev : String) :
    selectorSeparator prev "package" = pystr "/" := by
  rw [selectorSeparator, if_pos rfl]

theorem selectorSeparator_class_of_ne (prev : String) (h : ¬ prev = "class") :
    selectorSeparator prev "class" = pystr "/" := by
  rw [selectorSeparator, if_neg (by decide), if_pos rfl, if_neg h]

theorem selectorSeparator_classClass :
    selectorSeparator "class" "class" = pystr "$" := by
  rw [selectorSeparator, if_neg (by decide), if_pos rfl, if_pos rfl]

theorem selectorSeparator_wildcard (prev : String) :
    selectorSeparator prev "wildcard" = pystr "/" := by
  rw [selectorSeparator, if_neg (by decide), if_neg (by decide), if_pos rfl]

theorem selectorSeparator_member (prev : String) :
    selectorSeparator prev "member" = pystr ";->" := by
  rw [selectorSeparator, if_neg (by decide), if_neg (by decide),
    if_neg (by decide), if_pos rfl]

theorem elementsToSelectorLoop_eq :
    ∀ (es : List Element) (prev : String) (sig : PyStr), sig ≠ [] →
      elementsToSelectorLoop sig prev es = sig ++ renderTail prev es
  | [], prev, sig, _ => by
    rw [elementsToSelectorLoop, renderTail, List.append_nil]
  | (ty, v) :: rest, prev, sig, hs => by
    rw [elementsToSelectorLoop]
    rw [if_pos hs]
    rw [elementsToSelectorLoop_eq rest ty (sig ++ selectorSeparator prev ty ++ v)
      (by
        intro hc
        exact hs (List.append_eq_nil.mp (List.append_eq_nil.mp hc).1).1)]
    rw [renderTail]
    simp only [List.append_assoc]

theorem elements_to_selector_eq (ty : String) (v : PyStr) (rest : List Element)
    (hv : v ≠ []) :
    elements_to_selector ((ty, v) :: rest) = v ++ renderTail ty rest := by
  rw [elements_to_selector, elementsToSelectorLoop]
  rw [if_neg (show ¬ ([] : PyStr) ≠ [] from fun h => h rfl)]
  rw [List.nil_append]
  exact elementsToSelectorLoop_eq rest ty v hv

theorem renderTail_package :
    ∀ (pkgs : List PyStr) (tail : List Element),
      renderTail "package" (pkgs.map (fun v => (("package" : String), v)) ++ tail)
        = (pkgs.map (fun v => pystr "/" ++ v)).flatten
          ++ renderTail "package" tail := by
  intro pkgs
  induction pkgs with
  | nil =>
    intro tail
    simp only [List.map_nil, List.flatten_nil, List.nil_append]
  | cons v rest ih =>
    intro tail
    rw [List.map_cons, List.cons_append, renderTail, selectorSeparator_package,
      List.map_cons, List.flatten_cons, ih tail]
    simp only [List.append_assoc]

theorem renderTail_members :
    ∀ (mems : List PyStr) (prev : String),
      renderTail prev (mems.map (fun m => (("member" : String), m)))
        = (mems.map (fun m => pystr ";->" ++ m)).flatten := by
  intro mems
  induction mems with
  | nil => intro prev; rfl
  | cons m rest ih =>
    intro prev
    rw [List.map_cons, renderTail, selectorSeparator_member,
      List.map_cons, List.flatten_cons, ih "member"]

theorem renderTail_classes_members :
    ∀ (crest mems : List PyStr),
      renderTail "class" (crest.map (fun c => (("class" : String), c))
          ++ mems.map (fun m => (("member" : String), m)))
        = (crest.map (fun c => pystr "$" ++ c)).flatten
          ++ (mems.map (fun m => pystr ";->" ++ m)).flatten := by
  intro crest
  induction crest with
  | nil =>
    intro mems
    simp only [List.map_nil, List.nil_append, List.flatten_nil]
    exact renderTail_members mems "class"
  | cons c rest ih =>
    intro mems
    rw [List.map_cons, List.cons_append, renderTail, selectorSeparator_classClass,
      List.map_cons, List.flatten_cons, ih mems]
    simp only [List.append_assoc]

theorem renderTail_wildcard_only (prev : String) (w : PyStr) :
    renderTail prev [("wildcard", w)] = pystr "/" ++ w := by
  rw [renderTail, selectorSeparator_wildcard, renderTail, List.append_nil]

end HiddenApi

namespace HiddenApi

/-! ## Last-segment and remove-suffix support -/

theorem dropLast_getLastD {α : Type} (d : α) :
    ∀ (l : List α), l ≠ [] → l.dropLast ++ [l.getLastD d] = l := by
  intro l
  induction l with
  | nil => intro h; exact absurd rfl h
  | cons a t ih =>
    intro _
    cases t with
    | nil => rfl
    | cons b t2 =>
      have h2 := ih (by intro hc; exact List.noConfusion hc)
      rw [show (a :: b :: t2).dropLast = a :: (b :: t2).dropLast from rfl,
        show (a :: b :: t2).getLastD d = (b :: t2).getLastD d from rfl,
        List.cons_append, h2]

/-- Every piece of a split is an infix of the string. -/
theorem pySplit_pieces_isInfix {sep : PyStr} (hsep : sep ≠ []) :
    ∀ (n : Nat) (x : PyStr), x.length ≤ n → ∀ p ∈ pySplit sep x, p <:+: x := by
  intro n
  induction n with
  | zero =>
    intro x hx p hp
    cases x with
    | nil =>
      rw [pySplit_nil hsep] at hp
      rw [List.mem_singleton.mp hp]
    | cons c r => simp at hx
  | succ m ih =>
    intro x hx p hp
    cases x with
    | nil =>
      rw [pySplit_nil hsep] at hp
      rw [List.mem_singleton.mp hp]
    | cons c r =>
      have hs1 : 0 < sep.length := List.length_pos.mpr hsep
      have hr : r.length ≤ m := by simp only [List.length_cons] at hx; omega
      rw [pySplit_cons hsep] at hp
      by_cases hP : sep.isPrefixOf (c :: r) = true
      · rw [if_pos hP] at hp
        rcases List.mem_cons.mp hp with h1 | h1
        · rw [h1]
          exact List.nil_infix
        · exact ((ih ((c :: r).drop sep.length)
            (by simp only [List.length_drop, List.length_cons]; omega) p
            h1).trans (List.drop_suffix _ _).isInfix)
      · rw [if_neg hP] at hp
        rcases hq : pySplit sep r with _ | ⟨q, qs⟩
        · exact absurd hq (pySplit_ne_nil _ _)
        · simp only [hq] at hp
          rcases List.mem_cons.mp hp with h1 | h1
          · subst h1
            exact (List.cons_prefix_cons.mpr
              ⟨rfl, pySplit_first_isPrefix hsep m r hr hq⟩).isInfix
          · exact List.infix_cons
              (ih r hr p (by rw [hq]; exact List.mem_cons_of_mem _ h1))

theorem pyIsLower_append_semi (y : PyStr) :
    pyIsLower (y ++ [';']) = pyIsLower y := by
  rw [pyIsLower, pyIsLower, List.any_append, List.all_append,
    show ([';'].any (fun c => c.isAlpha)) = false from by decide,
    show ([';'].all (fun c => !c.isAlpha || c.isLower)) = true from by decide,
    Bool.or_false, Bool.and_true]

theorem pyRemoveSuffix_semi_cases (x : PyStr) :
    pyRemoveSuffix x (pystr ";") = x
      ∨ x = pyRemoveSuffix x (pystr ";") ++ [';'] := by
  rw [pyRemoveSuffix]
  by_cases hc : pystr ";" ≠ [] ∧ (pystr ";").isSuffixOf x = true
  · right
    rw [if_pos hc]
    obtain ⟨y, hy⟩ := List.isSuffixOf_iff_suffix.mp hc.2
    rw [← hy]
    rw [show (y ++ pystr ";").length - (pystr ";").length = y.length from by
      rw [List.length_append]
      rfl]
    rw [List.take_left]
    rfl
  · left
    rw [if_neg hc]

theorem removeSuffix_semi_isPrefix (x : PyStr) :
    pyRemoveSuffix x (pystr ";") <+: x := by
  rcases pyRemoveSuffix_semi_cases x with h | h
  · rw [h]
  · conv_rhs => rw [h]
    exact List.prefix_append _ _

theorem contains_removeSuffix_semi {x : PyStr} {c : Char}
    (h : x.contains c = false) :
    (pyRemoveSuffix x (pystr ";")).contains c = false := by
  rw [contains_false_iff] at h ⊢
  intro hm
  exact h ((removeSuffix_semi_isPrefix x).subset hm)

theorem pyIsLower_removeSuffix_semi (x : PyStr) :
    pyIsLower (pyRemoveSuffix x (pystr ";")) = pyIsLower x := by
  rcases pyRemoveSuffix_semi_cases x with h | h
  · rw [h]
  · conv_rhs => rw [h]
    rw [pyIsLower_append_semi]

theorem occursIn_removeSuffix_semi {sep x : PyStr}
    (h : occursIn sep x = false) :
    occursIn sep (pyRemoveSuffix x (pystr ";")) = false :=
  occursIn_false_of_infix h (removeSuffix_semi_isPrefix x).isInfix

/-- A glue on a single boundary character foreign to `sep` stays free of
`sep` when all the pieces are. -/
theorem occursIn_glue_char {sep : PyStr} {ch : Char}
    (hch : sep.contains ch = false) :
    ∀ (ps : List PyStr) (p : PyStr), occursIn sep p = false →
      (∀ x ∈ ps, occursIn sep x = false) →
      occursIn sep (glueSep [ch] p ps) = false := by
  intro ps
  induction ps with
  | nil =>
    intro p hp _
    rw [glueSep, List.map_nil, List.flatten_nil, List.append_nil]
    exact hp
  | cons q rest ih =>
    intro p hp hall
    rw [glueSep, List.map_cons, List.flatten_cons,
      show ([ch] ++ q) ++ (List.map (fun x => [ch] ++ x) rest).flatten
        = ch :: glueSep [ch] q rest from by rw [glueSep]; rfl]
    exact occursIn_append_char hch (glueSep [ch] q rest) hp
      (ih q (hall q (List.mem_cons_self _ _))
        (fun x hx => hall x (List.mem_cons_of_mem _ hx)))

end HiddenApi

namespace HiddenApi

/-! ## Re-decomposition of a rendered selector -/

theorem removePrefix_L (T : PyStr) :
    pyRemovePrefix (pystr "L" ++ T) (pystr "L") = T := by
  rw [pyRemovePrefix,
    if_pos (List.isPrefixOf_iff_prefix.mpr (List.prefix_append _ _))]
  exact List.drop_left _ _

/-- Re-decomposing a member-shaped rendered text from its split structure. -/
theorem signature_to_elements_of_splits (T Q : PyStr) (mems : List PyStr)
    (pk : List PyStr) (chunk : PyStr)
    (hsplitM : pySplit (pystr ";->") (pyRemovePrefix (pystr "L" ++ T) (pystr "L"))
      = Q :: mems)
    (hsplitS : pySplit (pystr "/") Q = pk ++ [chunk])
    (hstar : chunk.contains '*' = false)
    (hlow : pyIsLower chunk = false)
    (hsemi : pyRemoveSuffix chunk (pystr ";") = chunk) :
    signature_to_elements (pystr "L" ++ T)
      = .ok (pk.map (fun x => ("package", x))
          ++ (pySplit (pystr "$") chunk).map (fun x => ("class", x))
          ++ mems.map (fun x => ("member", x))) := by
  have hq : qualifiedPart (pystr "L" ++ T) = Q := by
    rw [qualifiedPart, hsplitM]
    rfl
  have hmp : memberParts (pystr "L" ++ T) = mems := by
    rw [memberParts, hsplitM]
    rfl
  have hps : pathSegments (pystr "L" ++ T) = pk ++ [chunk] := by
    rw [pathSegments, hq, hsplitS]
  have hls : lastSegment (pystr "L" ++ T) = chunk := by
    rw [lastSegment, hps]
    exact List.getLastD_concat _ _ _
  rw [signature_to_elements, hls]
  rw [if_neg (show ¬ pyContainsChar chunk '*' = true from by
    rw [show pyContainsChar chunk '*' = chunk.contains '*' from rfl, hstar]
    exact Bool.false_ne_true)]
  rw [if_neg (show ¬ pyIsLower chunk = true from by
    rw [hlow]
    exact Bool.false_ne_true)]
  rw [hps, List.dropLast_concat, hsemi, hmp]

/-- Re-decomposing a wildcard-shaped rendered text from its split structure. -/
theorem signature_to_elements_of_splits_wild (T Q : PyStr)
    (pk : List PyStr) (w : PyStr)
    (hsplitM : pySplit (pystr ";->") (pyRemovePrefix (pystr "L" ++ T) (pystr "L"))
      = [Q])
    (hsplitS : pySplit (pystr "/") Q = pk ++ [w])
    (hw : w = pystr "*" ∨ w = pystr "**") :
    signature_to_elements (pystr "L" ++ T)
      = .ok (pk.map (fun x => ("package", x)) ++ [("wildcard", w)]) := by
  have hq : qualifiedPart (pystr "L" ++ T) = Q := by
    rw [qualifiedPart, hsplitM]
    rfl
  have hmp : memberParts (pystr "L" ++ T) = [] := by
    rw [memberParts, hsplitM]
    rfl
  have hps : pathSegments (pystr "L" ++ T) = pk ++ [w] := by
    rw [pathSegments, hq, hsplitS]
  have hls : lastSegment (pystr "L" ++ T) = w := by
    rw [lastSegment, hps]
    exact List.getLastD_concat _ _ _
  rw [signature_to_elements, hls]
  rw [if_pos (show pyContainsChar w '*' = true from by
    rcases hw with h | h <;> rw [h] <;> decide)]
  rw [if_neg (show ¬ (w ≠ pystr "*" ∧ w ≠ pystr "**") from by
    rintro ⟨h1, h2⟩
    rcases hw with h | h
    · exact h1 h
    · exact h2 h)]
  rw [if_neg (show ¬ memberParts (pystr "L" ++ T) ≠ [] from by
    rw [hmp]
    exact fun h => h rfl)]
  rw [hps, List.dropLast_concat]

end HiddenApi

namespace HiddenApi

/-- C8 (confirmed): for a signature or pattern `s` that decomposes
successfully, whose first element value is nonempty and whose last path
segment does not retain a trailing `';'` after the one strip the grammar
performs, rendering the elements back to selector text, re-applying the
leading `L` sentinel and decomposing again yields the same element
sequence. -/
theorem claim_C8 (s : PyStr) (es : List Element)
    (hse : signature_to_elements s = .ok es)
    (hfirst : (es.headD ("", [])).2 ≠ [])
    (hsemi : pyRemoveSuffix (pyRemoveSuffix (lastSegment s) (pystr ";")) (pystr ";")
      = pyRemoveSuffix (lastSegment s) (pystr ";")) :
    signature_to_elements (pystr "L" ++ elements_to_selector es) = .ok es := by
  rcases hY : pySplit (pystr ";->") (pyRemovePrefix s (pystr "L")) with _ | ⟨q0, qrest⟩
  · exact absurd hY (pySplit_ne_nil _ _)
  have hqual : qualifiedPart s = q0 := by
    rw [qualifiedPart, hY]
    rfl
  have hmemp : memberParts s = qrest := by
    rw [memberParts, hY]
    rfl
  have hq0free : occursIn (pystr ";->") q0 = false :=
    pySplit_pieces_free (by decide) _ _ le_rfl q0
      (by rw [hY]; exact List.mem_cons_self _ _)
  have hqrfree : ∀ m ∈ qrest, occursIn (pystr ";->") m = false := fun m hm =>
    pySplit_pieces_free (by decide) _ _ le_rfl m
      (by rw [hY]; exact List.mem_cons_of_mem _ hm)
  have hpaths : pathSegments s = pySplit (pystr "/") q0 := by
    rw [pathSegments, hqual]
  have hpsne : pathSegments s ≠ [] := by
    rw [hpaths]
    exact pySplit_ne_nil _ _
  have hdecomp : (pathSegments s).dropLast ++ [lastSegment s] = pathSegments s :=
    dropLast_getLastD [] _ hpsne
  have hseg_slash : ∀ v ∈ pathSegments s, occursIn (pystr "/") v = false := by
    intro v hv
    rw [hpaths] at hv
    exact pySplit_pieces_free (by decide) _ _ le_rfl v hv
  have hseg_mfree : ∀ v ∈ pathSegments s, occursIn (pystr ";->") v = false := by
    intro v hv
    rw [hpaths] at hv
    exact occursIn_false_of_infix hq0free
      (pySplit_pieces_isInfix (by decide) _ _ le_rfl v hv)
  have hlast_mem : lastSegment s ∈ pathSegments s := by
    rw [← hdecomp]
    exact List.mem_append_right _ (List.mem_singleton.mpr rfl)
  have hP_mem : ∀ v ∈ (pathSegments s).dropLast, v ∈ pathSegments s := by
    intro v hv
    rw [← hdecomp]
    exact List.mem_append_left _ hv
  rw [signature_to_elements] at hse
  by_cases h1 : pyContainsChar (lastSegment s) '*' = true
  · rw [if_pos h1] at hse
    by_cases h2 : lastSegment s ≠ pystr "*" ∧ lastSegment s ≠ pystr "**"
    · rw [if_pos h2] at hse
      exact Except.noConfusion hse
    · rw [if_neg h2] at hse
      by_cases h3 : memberParts s ≠ []
      · rw [if_pos h3] at hse
        exact Except.noConfusion hse
      · rw [if_neg h3] at hse
        have hw : lastSegment s = pystr "*" ∨ lastSegment s = pystr "**" := by
          by_cases hx : lastSegment s = pystr "*"
          · exact Or.inl hx
          · right
            by_cases hy : lastSegment s = pystr "**"
            · exact hy
            · exact absurd ⟨hx, hy⟩ h2
        have hwne : lastSegment s ≠ [] := by
          rcases hw with h | h <;> rw [h] <;> decide
        have hw_slash : occursIn (pystr "/") (lastSegment s) = false := by
          rcases hw with h | h <;> rw [h] <;> decide
        have hw_mfree : occursIn (pystr ";->") (lastSegment s) = false := by
          rcases hw with h | h <;> rw [h] <;> decide
        have hes : ((pathSegments s).dropLast).map
              (fun x => (("package" : String), x))
            ++ [(("wildcard" : String), lastSegment s)] = es := by
          injection hse with h
        rcases hPq : (pathSegments s).dropLast with _ | ⟨v1, prest⟩
        · rw [hPq, List.map_nil, List.nil_append] at hes
          subst hes
          have hsel : elements_to_selector [("wildcard", lastSegment s)]
              = lastSegment s := by
            rw [elements_to_selector_eq "wildcard" (lastSegment s) [] hwne,
              renderTail, List.append_nil]
          rw [hsel]
          have h5 := signature_to_elements_of_splits_wild (lastSegment s)
            (lastSegment s) [] (lastSegment s)
            (by rw [removePrefix_L]; exact pySplit_eq_single (by decide) hw_mfree)
            (by
              rw [List.nil_append]
              exact pySplit_eq_single (by decide) hw_slash)
            hw
          simp only [List.map_nil, List.nil_append] at h5
          exact h5
        · rw [hPq] at hes
          subst hes
          have hv1ne : v1 ≠ [] := hfirst
          have hv1_mem : v1 ∈ pathSegments s :=
            hP_mem v1 (by rw [hPq]; exact List.mem_cons_self _ _)
          have hprest_mem : ∀ v ∈ prest, v ∈ pathSegments s := fun v hv =>
            hP_mem v (by rw [hPq]; exact List.mem_cons_of_mem _ hv)
          have hsel : elements_to_selector
              ((List.map (fun x => (("package" : String), x)) (v1 :: prest))
                ++ [("wildcard", lastSegment s)])
              = glueSep (pystr "/") v1 (prest ++ [lastSegment s]) := by
            rw [List.map_cons, List.cons_append,
              elements_to_selector_eq "package" v1 _ hv1ne,
              renderTail_package prest [("wildcard", lastSegment s)],
              renderTail_wildcard_only "package" (lastSegment s)]
            simp only [glueSep, List.map_append, List.flatten_append,
              List.map_cons, List.flatten_cons, List.map_nil, List.flatten_nil,
              List.append_nil, List.append_assoc]
          rw [hsel]
          have h5 := signature_to_elements_of_splits_wild
            (glueSep (pystr "/") v1 (prest ++ [lastSegment s]))
            (glueSep (pystr "/") v1 (prest ++ [lastSegment s]))
            (v1 :: prest) (lastSegment s)
            (by
              rw [removePrefix_L]
              refine pySplit_eq_single (by decide) ?_
              refine occursIn_glue_char (by decide) _ _
                (hseg_mfree v1 hv1_mem) ?_
              intro x hx
              rcases List.mem_append.mp hx with h | h
              · exact hseg_mfree x (hprest_mem x h)
              · rw [List.mem_singleton.mp h]
                exact hw_mfree)
            (by
              refine pySplit_glue_char '/' (prest ++ [lastSegment s]) v1
                (hseg_slash v1 hv1_mem) ?_
              intro x hx
              rcases List.mem_append.mp hx with h | h
              · exact hseg_slash x (hprest_mem x h)
              · rw [List.mem_singleton.mp h]
                exact hw_slash)
            hw
          exact h5
  · rw [if_neg h1] at hse
    have hstar : pyContainsChar (lastSegment s) '*' = false := by
      cases hx : pyContainsChar (lastSegment s) '*'
      · rfl
      · exact absurd hx h1
    by_cases h4 : pyIsLower (lastSegment s) = true
    · rw [if_pos h4] at hse
      exact Except.noConfusion hse
    · rw [if_neg h4] at hse
      have hlow : pyIsLower (lastSegment s) = false := by
        cases hx : pyIsLower (lastSegment s)
        · rfl
        · exact absurd hx h4
      rcases hC : pySplit (pystr "$") (pyRemoveSuffix (lastSegment s) (pystr ";"))
        with _ | ⟨c0, crest⟩
      · exact absurd hC (pySplit_ne_nil _ _)
      have hchunk : glueSep (pystr "$") c0 crest
          = pyRemoveSuffix (lastSegment s) (pystr ";") :=
        glueSep_pySplit (by decide) _ _ le_rfl hC
      have hR_slash : occursIn (pystr "/")
          (pyRemoveSuffix (lastSegment s) (pystr ";")) = false :=
        occursIn_removeSuffix_semi (hseg_slash _ hlast_mem)
      have hR_mfree : occursIn (pystr ";->")
          (pyRemoveSuffix (lastSegment s) (pystr ";")) = false :=
        occursIn_removeSuffix_semi (hseg_mfree _ hlast_mem)
      have hR_star : (pyRemoveSuffix (lastSegment s) (pystr ";")).contains '*'
          = false :=
        contains_removeSuffix_semi hstar
      have hR_low : pyIsLower (pyRemoveSuffix (lastSegment s) (pystr ";"))
          = false := by
        rw [pyIsLower_removeSuffix_semi]
        exact hlow
      have hes : ((pathSegments s).dropLast).map
            (fun x => (("package" : String), x))
          ++ (pySplit (pystr "$") (pyRemoveSuffix (lastSegment s) (pystr ";"))).map
              (fun x => (("class" : String), x))
          ++ (memberParts s).map (fun x => (("member" : String), x)) = es := by
        injection hse with h
      rw [hC, hmemp] at hes
      rcases hPq : (pathSegments s).dropLast with _ | ⟨v1, prest⟩
      · rw [hPq, List.map_nil, List.nil_append] at hes
        subst hes
        have hc0ne : c0 ≠ [] := hfirst
        have hsel : elements_to_selector
            ((List.map (fun x => (("class" : String), x)) (c0 :: crest))
              ++ List.map (fun x => (("member" : String), x)) qrest)
            = glueSep (pystr ";->") (glueSep (pystr "$") c0 crest) qrest := by
          rw [List.map_cons, List.cons_append,
            elements_to_selector_eq "class" c0 _ hc0ne,
            renderTail_classes_members crest qrest]
          simp only [glueSep, List.map_append, List.flatten_append,
            List.map_cons, List.flatten_cons, List.map_nil, List.flatten_nil,
            List.append_nil, List.append_assoc]
        rw [hchunk] at hsel
        rw [hsel]
        have h5 := signature_to_elements_of_splits
          (glueSep (pystr ";->") (pyRemoveSuffix (lastSegment s) (pystr ";")) qrest)
          (pyRemoveSuffix (lastSegment s) (pystr ";")) qrest []
          (pyRemoveSuffix (lastSegment s) (pystr ";"))
          (by
            rw [removePrefix_L]
            exact pySplit_glue (by decide) (by decide) qrest _ hR_mfree hqrfree)
          (by
            rw [List.nil_append]
            exact pySplit_eq_single (by decide) hR_slash)
          hR_star hR_low hsemi
        rw [hC] at h5
        simp only [List.map_nil, List.nil_append] at h5
        exact h5
      · rw [hPq] at hes
        subst hes
        have hv1ne : v1 ≠ [] := hfirst
        have hv1_mem : v1 ∈ pathSegments s :=
          hP_mem v1 (by rw [hPq]; exact List.mem_cons_self _ _)
        have hprest_mem : ∀ v ∈ prest, v ∈ pathSegments s := fun v hv =>
          hP_mem v (by rw [hPq]; exact List.mem_cons_of_mem _ hv)
        have hsel : elements_to_selector
            ((List.map (fun x => (("package" : String), x)) (v1 :: prest))
              ++ (List.map (fun x => (("class" : String), x)) (c0 :: crest))
              ++ List.map (fun x => (("member" : String), x)) qrest)
            = glueSep (pystr ";->")
                (glueSep (pystr "/") v1 (prest ++ [glueSep (pystr "$") c0 crest]))
                qrest := by
          rw [List.map_cons, List.cons_append, List.cons_append,
            elements_to_selector_eq "package" v1 _ hv1ne,
            List.append_assoc,
            renderTail_package prest _,
            List.map_cons, List.cons_append, renderTail,
            selectorSeparator_class_of_ne "package" (by decide),
            renderTail_classes_members crest qrest]
          simp only [glueSep, List.map_append, List.flatten_append,
            List.map_cons, List.flatten_cons, List.map_nil, List.flatten_nil,
            List.append_nil, List.append_assoc]
        rw [hchunk] at hsel
        rw [hsel]
        have h5 := signature_to_elements_of_splits
          (glueSep (pystr ";->")
            (glueSep (pystr "/") v1
              (prest ++ [pyRemoveSuffix (lastSegment s) (pystr ";")])) qrest)
          (glueSep (pystr "/") v1
            (prest ++ [pyRemoveSuffix (lastSegment s) (pystr ";")]))
          qrest (v1 :: prest)
          (pyRemoveSuffix (lastSegment s) (pystr ";"))
          (by
            rw [removePrefix_L]
            refine pySplit_glue (by decide) (by decide) qrest _ ?_ hqrfree
            refine occursIn_glue_char (by decide) _ _
              (hseg_mfree v1 hv1_mem) ?_
            intro x hx
            rcases List.mem_append.mp hx with h | h
            · exact hseg_mfree x (hprest_mem x h)
            · rw [List.mem_singleton.mp h]
              exact hR_mfree)
          (by
            refine pySplit_glue_char '/'
              (prest ++ [pyRemoveSuffix (lastSegment s) (pystr ";")]) v1
              (hseg_slash v1 hv1_mem) ?_
            intro x hx
            rcases List.mem_append.mp hx with h | h
            · exact hseg_slash x (hprest_mem x h)
            · rw [List.mem_singleton.mp h]
              exact hR_slash)
          hR_star hR_low hsemi
        rw [hC] at h5
        exact h5

end HiddenApi

namespace HiddenApi

theorem claim_C8_witness :
    signature_to_elements (pystr "La/b/C$D;->m()V")
        = .ok [("package", pystr "a"), ("package", pystr "b"),
            ("class", pystr "C"), ("class", pystr "D"),
            ("member", pystr "m()V")]
    ∧ (([("package", pystr "a"), ("package", pystr "b"),
            ("class", pystr "C"), ("class", pystr "D"),
            ("member", pystr "m()V")] : List Element).headD ("", [])).2 ≠ []
    ∧ pyRemoveSuffix
          (pyRemoveSuffix (lastSegment (pystr "La/b/C$D;->m()V")) (pystr ";"))
          (pystr ";")
        = pyRemoveSuffix (lastSegment (pystr "La/b/C$D;->m()V")) (pystr ";")
    ∧ signature_to_elements (pystr "L" ++ elements_to_selector
          [("package", pystr "a"), ("package", pystr "b"),
            ("class", pystr "C"), ("class", pystr "D"),
            ("member", pystr "m()V")])
        = .ok [("package", pystr "a"), ("package", pystr "b"),
            ("class", pystr "C"), ("class", pystr "D"),
            ("member", pystr "m()V")] :=
  ⟨by decide, by decide, by decide,
    claim_C8 (pystr "La/b/C$D;->m()V")
      [("package", pystr "a"), ("package", pystr "b"),
        ("class", pystr "C"), ("class", pystr "D"),
        ("member", pystr "m()V")]
      (by decide) (by decide) (by decide)⟩

end HiddenApi

namespace HiddenApi

/-! ## Pattern generation for prefix-covered streams -/

theorem mem_setAdd {s : List PyStr} {x y : PyStr} (h : y ∈ setAdd s x) :
    y ∈ s ∨ y = x := by
  rw [setAdd] at h
  by_cases hc : s.contains x = true
  · rw [if_pos hc] at h
    exact Or.inl h
  · rw [if_neg hc] at h
    rcases List.mem_append.mp h with h1 | h1
    · exact Or.inl h1
    · exact Or.inr (List.mem_singleton.mp h1)

theorem producePatternsRow_empty (acc : List PyStr) (s : PyStr) :
    producePatternsRow [] [] ([], acc) s = ([], setAdd acc (pkg_of s)) := rfl

theorem foldRow_spec :
    ∀ (sigs : List PyStr) (acc : List PyStr),
      (sigs.foldl (producePatternsRow [] []) ([], acc)).1 = []
      ∧ ∀ x ∈ (sigs.foldl (producePatternsRow [] []) ([], acc)).2,
          x ∈ acc ∨ ∃ s ∈ sigs, x = pkg_of s := by
  intro sigs
  induction sigs with
  | nil =>
    intro acc
    exact ⟨rfl, fun x hx => Or.inl hx⟩
  | cons s rest ih =>
    intro acc
    rw [List.foldl_cons, producePatternsRow_empty]
    refine ⟨(ih (setAdd acc (pkg_of s))).1, ?_⟩
    intro x hx
    rcases (ih (setAdd acc (pkg_of s))).2 x hx with h | ⟨s2, hs2, he⟩
    · rcases mem_setAdd h with h1 | h1
      · exact Or.inl h1
      · exact Or.inr ⟨s, List.mem_cons_self _ _, h1⟩
    · exact Or.inr ⟨s2, List.mem_cons_of_mem _ hs2, he⟩

end HiddenApi

namespace HiddenApi

/-- `signatureToElements` of `verify_overlaps.py` on a pattern
`p ++ "/" ++ w` for a wildcard token `w`: the package elements of `p`
followed by one wildcard element. -/
theorem signatureToElements_pkg_wildcard (p w : PyStr)
    (hw : w = pystr "*" ∨ w = pystr "**")
    (hwc : w.contains '/' = false)
    (hL : pyRemovePrefix (p ++ '/' :: w) (pystr "L") = p ++ '/' :: w)
    (hm : pySplit (pystr ";->") (p ++ '/' :: w) = [p ++ '/' :: w]) :
    signatureToElements (p ++ '/' :: w)
      = .ok (pkgElems p ++ [("wildcard", w)]) := by
  have hq : qualifiedPart (p ++ '/' :: w) = p ++ '/' :: w := by
    rw [qualifiedPart, hL, hm]
    rfl
  have hps : pathSegments (p ++ '/' :: w) = pySplit (pystr "/") p ++ [w] := by
    rw [pathSegments, hq, show (pystr "/") = ['/'] from rfl,
      pySplit_char_append '/' p w,
      pySplit_eq_single (by decide) (occursIn_of_not_contains rfl hwc)]
  have hls : lastSegment (p ++ '/' :: w) = w := by
    rw [lastSegment, hps]
    exact List.getLastD_concat _ _ _
  have hmp : memberParts (p ++ '/' :: w) = [] := by
    rw [memberParts, hL, hm]
    rfl
  rw [signatureToElements, hls, if_pos hw]
  rw [if_neg (show ¬ memberParts (p ++ '/' :: w) ≠ [] from by
    rw [hmp]
    exact fun h => h rfl)]
  rw [hps, List.dropLast_concat]
  rfl

/-- C5 counterexample: pattern generation is not idempotent for the cited
query implementation (`verify_overlaps.py`'s `getMatchingRows`).  The
signature `LOuter;->m()V` has no package component, so the package the
generator computes — `rsplit("/", 1)[0]` of the qualified class name — is
the class name `Outer`; classifying it as a single package produces the sole
pattern `Outer/*` with no errors, but that pattern decomposes to a
`package:Outer` element while the trie binds `class:Outer`, so the only
generated pattern matches nothing and the original signature set is not
reproduced.  (The last conjunct shows the contrast: a split-package class
pattern such as `a/b/out` — which `signature_trie.py`'s stricter decompose
would reject as lower case — is accepted by the cited code and does return
the inserted row.) -/
theorem claim_C5_counterexample :
    produce_patterns_from_stream [pystr "LOuter;->m()V"] [] [pystr "Outer"] []
        = ([pystr "Outer/*"], [])
    ∧ (Node.addOverlap (interiorNode (α := Nat)) (pystr "LOuter;->m()V") 0).2
        = none
    ∧ (Node.addOverlap (interiorNode (α := Nat))
          (pystr "LOuter;->m()V") 0).1.getMatchingRows (pystr "Outer/*")
        = .ok []
    ∧ (Node.addOverlap (interiorNode (α := Nat))
          (pystr "La/b/out$In;->m()V") 0).1.getMatchingRows (pystr "a/b/out")
        = .ok [0] := by
  refine ⟨by decide, by decide, by decide, by decide⟩

/-- C5 (corrected): idempotence fails on the cited `verify_overlaps.py`
query for a package-less signature classified as a single package (see
`claim_C5_counterexample`: its sole generated pattern `pkg/*` descends a
`package:` element where the trie binds a `class:` element and matches
nothing).  The amended statement: for a stream in which every signature's
package is covered by a declared package prefix and no split or single
packages are configured, the generator emits exactly the prefix patterns
`q ++ "/**"` with no errors; the queried pattern is among them; and each
such pattern, queried via `getMatchingRows` on a trie with well-formed keys
and no leaf strictly above the prefix's package path, returns exactly the
values of the signatures under that prefix. -/
theorem claim_C5 {α : Type} (sigs : List PyStr) (prefixes : List PyStr)
    (hcov : ∀ s ∈ sigs, optTruthy
      (matched_by_package_prefix_pattern prefixes (pkg_of s)) = true)
    (t : Node α) (p : PyStr) (hp : p ∈ prefixes)
    (hwf : wfKeys t = true)
    (hpre : ∀ pr ∈ leafPaths t, pr.1.isPrefixOf (pkgElems p) = true →
      pr.1 = pkgElems p)
    (hL2 : pyRemovePrefix (p ++ pystr "/**") (pystr "L") = p ++ pystr "/**")
    (hm2 : pySplit (pystr ";->") (p ++ pystr "/**") = [p ++ pystr "/**"]) :
    produce_patterns_from_stream sigs [] [] prefixes
        = (pySorted (prefixes.map (fun q => q ++ pystr "/**")), [])
    ∧ (p ++ pystr "/**") ∈ (produce_patterns_from_stream sigs [] [] prefixes).1
    ∧ t.getMatchingRows (p ++ pystr "/**")
        = .ok (((leafPaths t).filter
            (fun pr => (pkgElems p).isPrefixOf pr.1)).map Prod.snd) := by
  have hgen : produce_patterns_from_stream sigs [] [] prefixes
      = (pySorted (prefixes.map (fun q => q ++ pystr "/**")), []) := by
    rw [produce_patterns_from_stream]
    obtain ⟨h1, h2⟩ := foldRow_spec sigs []
    have hunm : (sigs.foldl (producePatternsRow [] []) ([], [])).2.filter
        (fun q => !optTruthy (matched_by_package_prefix_pattern prefixes q)) = [] := by
      rw [List.filter_eq_nil_iff]
      intro x hx
      rcases h2 x hx with h | ⟨s2, hs2, he⟩
      · cases h
      · subst he
        rw [hcov s2 hs2]
        intro hq
        exact Bool.noConfusion hq
    rw [h1, hunm]
    rw [if_neg (fun h => h rfl)]
    rfl
  refine ⟨hgen, ?_, ?_⟩
  · rw [hgen]
    exact mem_pySorted.mpr (List.mem_map.mpr ⟨p, hp, rfl⟩)
  · have hd2 : signatureToElements (p ++ pystr "/**")
        = .ok (pkgElems p ++ [("wildcard", pystr "**")]) :=
      signatureToElements_pkg_wildcard p (pystr "**") (Or.inr rfl) (by decide)
        hL2 hm2
    rw [Node.getMatchingRows, hd2]
    dsimp only
    rw [List.getLastD_concat]
    rw [if_pos (show elementType (("wildcard", pystr "**") : Element)
      = "wildcard" from rfl)]
    rw [if_neg (show ¬ (("wildcard", pystr "**") : Element).2 = pystr "*" from
      by decide)]
    rw [List.dropLast_concat]
    rw [getRowsWalk_eq_filter (fun _ => true) (pkgElems p) t hwf hpre]
    rw [show (fun pr : List Element × α =>
          pathMatches (pkgElems p) (fun _ => true) pr.1)
        = (fun pr : List Element × α => (pkgElems p).isPrefixOf pr.1) from by
      funext pr
      exact pathMatches_true_sel _ _]

end HiddenApi

namespace HiddenApi

theorem claim_C5_witness :
    (∀ s ∈ [pystr "La/b/C;->m()V"], optTruthy
      (matched_by_package_prefix_pattern [pystr "a"] (pkg_of s)) = true)
    ∧ wfKeys (Node.addOverlap (interiorNode (α := Nat))
        (pystr "La/b/C;->m()V") 0).1 = true
    ∧ (∀ pr ∈ leafPaths (Node.addOverlap (interiorNode (α := Nat))
          (pystr "La/b/C;->m()V") 0).1,
        pr.1.isPrefixOf (pkgElems (pystr "a")) = true →
          pr.1 = pkgElems (pystr "a"))
    ∧ produce_patterns_from_stream [pystr "La/b/C;->m()V"] [] [] [pystr "a"]
        = ([pystr "a/**"], [])
    ∧ (pystr "a" ++ pystr "/**")
        ∈ (produce_patterns_from_stream [pystr "La/b/C;->m()V"] [] []
            [pystr "a"]).1
    ∧ (Node.addOverlap (interiorNode (α := Nat))
          (pystr "La/b/C;->m()V") 0).1.getMatchingRows
        (pystr "a" ++ pystr "/**") = .ok [0] := by
  have h5 := claim_C5 [pystr "La/b/C;->m()V"] [pystr "a"] (by decide)
    (Node.addOverlap (interiorNode (α := Nat)) (pystr "La/b/C;->m()V") 0).1
    (pystr "a") (by decide) (by decide) (by decide) (by decide) (by decide)
  refine ⟨by decide, by decide, by decide, ?_, ?_, ?_⟩
  · rw [h5.1]
    decide
  · exact h5.2.1
  · rw [h5.2.2]
    decide

end HiddenApi
